import Mathlib

/-
Verification of the graph/connection/scheduling engine of the
node-based image processor (src/core/base_node.cpp, src/core/node_graph.cpp).

The stateful C++ classes are shallowly embedded as follows:
* a `BaseNode` object becomes a `Node` record; the `std::unordered_map`
  fields `m_inputs` / `m_outputs` become total functions returning the
  map's lookup result (`none` / `[]` when the key is absent, exactly the
  observable behaviour of `getInputConnection` / `getConnectedNodes`);
* the node pointer held in a connection entry becomes the node's id
  (`connectNodes` resolves ids to pointers via `getNode`, and the graph
  invariant keeps ids unique, so this is a faithful rendering);
* every mutating member function becomes a function from the graph state
  (`m_nodes`, a list of nodes) to a `Bool` result paired with the new state;
* the recursive `detectCycle` DFS is given explicit fuel; the driver
  `containsCycles` passes `g.length + 1`, which is proven sufficient.
-/

set_option maxHeartbeats 1000000

namespace NodeEngine

/-! ### Data model and operations (shallow embedding of the source) -/

/-- A processing node: identity, fixed port counts, and bidirectional
connection bookkeeping.  `inputs i` is the `(sourceId, outputPort)` feeding
input port `i` (field `m_inputs`); `outputs o` is the list of
`(targetId, inputPort)` pairs fed by output port `o` (field `m_outputs`). -/
@[ext] structure Node where
  id : Int
  inputCount : Int
  outputCount : Int
  inputs : Int → Option (Int × Int)
  outputs : Int → List (Int × Int)

/-- The graph's node collection `m_nodes` (order is observable: `getNode`
returns the first match and the scheduler scans in list order). -/
abbrev Graph := List Node

/-- The ids of the nodes of a graph, in collection order. -/
def idsOf (g : Graph) : List Int := g.map fun n => n.id

/-- `NodeGraph::getNode`: first node whose id matches, else null. -/
def getNode (g : Graph) (nodeId : Int) : Option Node :=
  g.find? fun n => n.id == nodeId

/-- Apply an in-place mutation to the node(s) with the given id (a C++
mutation through a `BaseNode*` held by the graph). -/
def updNode (g : Graph) (nodeId : Int) (f : Node → Node) : Graph :=
  g.map fun n => if n.id = nodeId then f n else n

/-- `BaseNode::getConnectedNodes`: contents of `m_outputs` at a port. -/
def getConnectedNodes (n : Node) (outputIndex : Int) : List (Int × Int) :=
  n.outputs outputIndex

/-- `BaseNode::getInputConnection`: contents of `m_inputs` at a port
(`none` renders the `{nullptr, -1}` "not connected" result). -/
def getInputConnection (n : Node) (inputIndex : Int) : Option (Int × Int) :=
  n.inputs inputIndex

/-- `BaseNode::connectOutput`, as a transformation of the graph owning both
endpoints (the method mutates `this` = the node with id `sId` and
`targetNode` = the node with id `tId`; the `none` branches are inert
placeholders for dereferencing pointers to graph members).  Range-checks
both ports, rejects an occupied target input, then records the edge on
both sides. -/
def connectOutput (g : Graph) (sId outputIndex tId inputIndex : Int) :
    Bool × Graph :=
  match getNode g sId, getNode g tId with
  | some s, some t =>
    if outputIndex < 0 ∨ outputIndex ≥ s.outputCount ∨
        inputIndex < 0 ∨ inputIndex ≥ t.inputCount then (false, g)
    else if (t.inputs inputIndex).isSome then (false, g)
    else
      let g1 := updNode g sId fun n =>
        { n with outputs := fun o =>
            if o = outputIndex then n.outputs o ++ [(tId, inputIndex)]
            else n.outputs o }
      let g2 := updNode g1 tId fun n =>
        { n with inputs := fun i =>
            if i = inputIndex then some (sId, outputIndex) else n.inputs i }
      (true, g2)
  | _, _ => (false, g)

/-- `BaseNode::disconnectOutput`: fails unless the exact edge is recorded on
the source's output side; then erases its first occurrence there and clears
the target's input slot (`m_inputs.erase`), unconditionally. -/
def disconnectOutput (g : Graph) (sId outputIndex tId inputIndex : Int) :
    Bool × Graph :=
  match getNode g sId, getNode g tId with
  | some s, some _ =>
    if (tId, inputIndex) ∈ s.outputs outputIndex then
      let g1 := updNode g sId fun n =>
        { n with outputs := fun o =>
            if o = outputIndex then (n.outputs o).erase (tId, inputIndex)
            else n.outputs o }
      let g2 := updNode g1 tId fun n =>
        { n with inputs := fun i =>
            if i = inputIndex then none else n.inputs i }
      (true, g2)
    else (false, g)
  | _, _ => (false, g)

/-- Successor ids visible to the cycle detector: for each output port
`0 ≤ o < outputCount`, the target ids recorded at that port, in order. -/
def succIds (n : Node) : List Int :=
  (List.range n.outputCount.toNat).flatMap fun o =>
    (n.outputs ((o : Int))).map Prod.fst

/-- One iteration shape of the inner loops of `detectCycle`: run `step` on
each element until one returns `true`, threading the DFS state. -/
def dfsFold (step : Int → List Int × List Int → Bool × (List Int × List Int)) :
    List Int → List Int × List Int → Bool × (List Int × List Int)
  | [], st => (false, st)
  | t :: ts, st =>
    match step t st with
    | (true, st') => (true, st')
    | (false, st') => dfsFold step ts st'

/-- `NodeGraph::detectCycle(nodeId, visited, recursionStack)`: 3-color DFS.
State is `(visited, recursionStack)` as id lists.  A null lookup returns
false; otherwise the node is marked visited and pushed, each successor is
recursed into if unvisited or reported as a back edge if on the stack, and
on normal completion the node is popped.  `fuel` bounds the recursion depth;
the driver passes `g.length + 1`, shown sufficient in the DFS lemmas. -/
def detectCycle (g : Graph) : Nat → Int → List Int × List Int →
    Bool × (List Int × List Int)
  | 0, _, st => (false, st)
  | fuel + 1, nodeId, st =>
    match getNode g nodeId with
    | none => (false, st)
    | some node =>
      let st1 := (nodeId :: st.1, nodeId :: st.2)
      match dfsFold (fun t st' =>
          if t ∈ st'.1 then
            if t ∈ st'.2 then (true, st') else (false, st')
          else detectCycle g fuel t st') (succIds node) st1 with
      | (true, st') => (true, st')
      | (false, st') => (false, (st'.1, st'.2.erase nodeId))

/-- `NodeGraph::containsCycles`: run the DFS from every unvisited node,
short-circuiting on the first detected cycle. -/
def containsCycles (g : Graph) : Bool :=
  (g.foldl (fun acc n =>
      if acc.1 then acc
      else if n.id ∈ acc.2.1 then acc
      else detectCycle g (g.length + 1) n.id acc.2)
    (false, ([], []))).1

/-- `NodeGraph::connectNodes`: resolve both ids, range-check the ports,
reject an occupied input, connect, then re-validate acyclicity and roll the
connection back if it closed a cycle. -/
def connectNodes (g : Graph) (sourceNodeId outputIndex targetNodeId inputIndex : Int) :
    Bool × Graph :=
  match getNode g sourceNodeId, getNode g targetNodeId with
  | some sourceNode, some targetNode =>
    if outputIndex < 0 ∨ outputIndex ≥ sourceNode.outputCount ∨
        inputIndex < 0 ∨ inputIndex ≥ targetNode.inputCount then (false, g)
    else if (targetNode.inputs inputIndex).isSome then (false, g)
    else
      let r := connectOutput g sourceNodeId outputIndex targetNodeId inputIndex
      if r.1 ∧ containsCycles r.2 then
        (false, (disconnectOutput r.2 sourceNodeId outputIndex targetNodeId inputIndex).2)
      else (r.1, r.2)
  | _, _ => (false, g)

/-- `NodeGraph::disconnectNodes`: resolve both ids, then delegate to the
node-level disconnect. -/
def disconnectNodes (g : Graph) (sourceNodeId outputIndex targetNodeId inputIndex : Int) :
    Bool × Graph :=
  match getNode g sourceNodeId, getNode g targetNodeId with
  | some _, some _ =>
    disconnectOutput g sourceNodeId outputIndex targetNodeId inputIndex
  | _, _ => (false, g)

/-- Body of the output-side loop of `NodeGraph::removeNode`: for each output
port, take a snapshot of the live connection list and disconnect each
recorded edge. -/
def removeOutLoop (g : Graph) (nodeId : Int) : List Int → Graph
  | [] => g
  | o :: rest =>
    match getNode g nodeId with
    | some n =>
      removeOutLoop
        ((n.outputs o).foldl
          (fun g' p => (disconnectOutput g' nodeId o p.1 p.2).2) g)
        nodeId rest
    | none => removeOutLoop g nodeId rest

/-- Body of the input-side loop of `NodeGraph::removeNode`: for each input
port with a recorded source, disconnect that source's output from it. -/
def removeInLoop (g : Graph) (nodeId : Int) : List Int → Graph
  | [] => g
  | i :: rest =>
    match getNode g nodeId with
    | some n =>
      match n.inputs i with
      | some (srcId, outIdx) =>
        removeInLoop (disconnectOutput g srcId outIdx nodeId i).2 nodeId rest
      | none => removeInLoop g nodeId rest
    | none => removeInLoop g nodeId rest

/-- `NodeGraph::removeNode`: reject an unknown id; otherwise disconnect all
output-side edges, then all input-side edges, then erase the node. -/
def removeNode (g : Graph) (nodeId : Int) : Bool × Graph :=
  match getNode g nodeId with
  | none => (false, g)
  | some node =>
    let g1 := removeOutLoop g nodeId
      ((List.range node.outputCount.toNat).map fun k : Nat => (k : Int))
    let g2 := removeInLoop g1 nodeId
      ((List.range node.inputCount.toNat).map fun k : Nat => (k : Int))
    (true, g2.eraseP fun n => n.id == nodeId)

/-- `NodeGraph::hasUnprocessedDependencies`: some in-range input port has a
recorded source whose id is not yet marked processed. -/
def hasUnprocessedDependencies (n : Node) (processed : List Int) : Bool :=
  (List.range n.inputCount.toNat).any fun i =>
    match n.inputs ((i : Int)) with
    | some (srcId, _) => decide (srcId ∉ processed)
    | none => false

/-- One full pass of the scheduler loop over `m_nodes`: append every
unmarked node whose recorded sources are all marked, updating the markers
as the pass proceeds; the Bool is the pass's `foundNode` flag. -/
def passRec (nodes : List Node) (result : List Node) (processed : List Int)
    (found : Bool) : List Node × List Int × Bool :=
  match nodes with
  | [] => (result, processed, found)
  | n :: rest =>
    if n.id ∈ processed then passRec rest result processed found
    else if hasUnprocessedDependencies n processed then
      passRec rest result processed found
    else passRec rest (result ++ [n]) (n.id :: processed) true

/-- A single pass started with `foundNode = false`. -/
def onePass (g : Graph) (result : List Node) (processed : List Int) :
    List Node × List Int × Bool :=
  passRec g result processed false

/-- The `while (result.size() < m_nodes.size())` loop of
`NodeGraph::getProcessingOrder`: repeat passes until all nodes are placed
or a pass appends nothing (the diagnostic `break`). -/
def orderLoop (g : Graph) (result : List Node) (processed : List Int) :
    List Node :=
  if _ : result.length < g.length then
    let r := onePass g result processed
    if hf : r.2.2 = true then orderLoop g r.1 r.2.1 else r.1
  else result
termination_by g.length - result.length
decreasing_by
  have key : ∀ (nodes result : List Node) (processed : List Int) (found : Bool),
      result.length ≤ (passRec nodes result processed found).1.length ∧
      ((passRec nodes result processed found).2.2 = true →
        found = true ∨
          result.length < (passRec nodes result processed found).1.length) := by
    intro nodes
    induction nodes with
    | nil => intro result processed found; simp [passRec]
    | cons n rest ih =>
      intro result processed found
      simp only [passRec]
      by_cases h1 : n.id ∈ processed
      · simp [h1]
        exact ih result processed found
      · by_cases h2 : hasUnprocessedDependencies n processed
        · simp [h1, h2]
          exact ih result processed found
        · simp [h1, h2]
          refine ⟨?_, ?_⟩
          · have hlen := (ih (result ++ [n]) (n.id :: processed) true).1
            simp at hlen
            omega
          · intro _
            have hlen := (ih (result ++ [n]) (n.id :: processed) true).1
            simp at hlen
            omega
  have hop : (onePass g result processed).1.length
      = (passRec g result processed false).1.length := rfl
  rcases (key g result processed false).2 hf with h' | h'
  · exact absurd h' (by simp)
  · have := (key g result processed false).1
    omega

/-- `NodeGraph::getProcessingOrder`. -/
def getProcessingOrder (g : Graph) : List Node :=
  orderLoop g [] []

/-- `NodeGraph::validateGraph`: no cycles, and every in-range input port of
every node has a recorded source. -/
def validateGraph (g : Graph) : Bool :=
  if containsCycles g then false
  else g.all fun n =>
    (List.range n.inputCount.toNat).all fun i =>
      (n.inputs ((i : Int))).isSome

/-- The directed edge relation induced by the output-side bookkeeping, as
traversed by the cycle detector: `a` has a node whose successor list
contains `b`. -/
def Edge (g : Graph) (a b : Int) : Prop :=
  ∃ n, n ∈ g ∧ n.id = a ∧ b ∈ succIds n

/-- Nonempty paths over an arbitrary step relation on ids. -/
inductive RPath (R : Int → Int → Prop) : Int → Int → Prop where
  | single {a b : Int} : R a b → RPath R a b
  | cons {a b c : Int} : R a b → RPath R b c → RPath R a c

/-- The graph's edge relation admits a nonempty cycle. -/
def Cyclic (g : Graph) : Prop := ∃ a, RPath (Edge g) a a

/-- The graph's edge relation is acyclic. -/
def Acyclic (g : Graph) : Prop := ∀ a, ¬ RPath (Edge g) a a

structure Inv (g : Graph) : Prop where
  nodup : (idsOf g).Nodup
  inEdge : ∀ t ∈ g, ∀ i sId o, t.inputs i = some (sId, o) →
    ∃ s ∈ g, s.id = sId ∧ (t.id, i) ∈ s.outputs o ∧
      0 ≤ o ∧ o < s.outputCount ∧ 0 ≤ i ∧ i < t.inputCount
  outEdge : ∀ s ∈ g, ∀ o tId i, (tId, i) ∈ s.outputs o →
    ∃ t ∈ g, t.id = tId ∧ t.inputs i = some (s.id, o)
  outRange : ∀ s ∈ g, ∀ o, ¬(0 ≤ o ∧ o < s.outputCount) → s.outputs o = []
  outNodup : ∀ s ∈ g, ∀ o, (s.outputs o).Nodup

/-- The per-node effect of a successful `BaseNode::connectOutput` with
arguments `(sId, o, tId, i)` (both `updNode` layers composed). -/
def connectUpd (sId o tId i : Int) (n : Node) : Node :=
  let n1 := if n.id = sId then
    { n with outputs := fun o' =>
        if o' = o then n.outputs o' ++ [(tId, i)] else n.outputs o' }
    else n
  if n.id = tId then
    { n1 with inputs := fun i' =>
        if i' = i then some (sId, o) else n1.inputs i' }
  else n1

/-- The per-node effect of a successful `BaseNode::disconnectOutput` with
arguments `(sId, o, tId, i)`. -/
def disconnectUpd (sId o tId i : Int) (n : Node) : Node :=
  let n1 := if n.id = sId then
    { n with outputs := fun o' =>
        if o' = o then (n.outputs o').erase (tId, i) else n.outputs o' }
    else n
  if n.id = tId then
    { n1 with inputs := fun i' => if i' = i then none else n1.inputs i' }
  else n1

/-- A start state as built by `addNode` alone: distinct ids and no
connections recorded anywhere. -/
def Fresh (g : Graph) : Prop :=
  (idsOf g).Nodup ∧ ∀ n ∈ g, (∀ i, n.inputs i = none) ∧ (∀ o, n.outputs o = [])

/-- Graph states reachable from `g0` by `connectNodes` / `disconnectNodes`
calls with arbitrary arguments. -/
inductive Reachable (g0 : Graph) : Graph → Prop where
  | base : Reachable g0 g0
  | connect (a o b i : Int) {g : Graph} :
      Reachable g0 g → Reachable g0 (connectNodes g a o b i).2
  | disconnect (a o b i : Int) {g : Graph} :
      Reachable g0 g → Reachable g0 (disconnectNodes g a o b i).2

/-- Number of graph node ids not yet visited (the DFS recursion measure). -/
def unvis (g : Graph) (v : List Int) : Nat :=
  ((idsOf g).filter fun x => decide (x ∉ v)).length

/-- Nodes that are visited and not on the recursion stack ("finished") are
closed under the edge relation. -/
def ClosedF (g : Graph) (v s : List Int) : Prop :=
  ∀ a, a ∈ v → a ∉ s → ∀ b, Edge g a b → b ∈ v ∧ b ∉ s

/-- No finished node lies on a nonempty cycle. -/
def NoCycF (g : Graph) (v s : List Int) : Prop :=
  ∀ a, a ∈ v → a ∉ s → ¬ RPath (Edge g) a a

/-- The recursion stack, most recent first: consecutive entries are joined
by an edge from the older to the newer node. -/
def SChain (g : Graph) (l : List Int) : Prop :=
  List.Chain' (fun x y => Edge g y x) l

/-- The per-successor action of `detectCycle`'s inner loop (named so the
loop can be reasoned about; definitionally the lambda in `detectCycle`). -/
def dfsStep (g : Graph) (fuel : Nat) (t : Int) (st' : List Int × List Int) :
    Bool × (List Int × List Int) :=
  if t ∈ st'.1 then
    if t ∈ st'.2 then (true, st') else (false, st')
  else detectCycle g fuel t st'

/-- The per-node action of the `containsCycles` driver loop
(definitionally the lambda in `containsCycles`). -/
def topStep (g : Graph) (acc : Bool × List Int × List Int) (n : Node) :
    Bool × List Int × List Int :=
  if acc.1 then acc
  else if n.id ∈ acc.2.1 then acc
  else detectCycle g (g.length + 1) n.id acc.2

/-- Every node of a schedule has all its recorded input sources scheduled
strictly earlier. -/
def DepsDone (l : List Node) : Prop :=
  ∀ l1 n l2, l = l1 ++ n :: l2 →
    ∀ i sId o, 0 ≤ i → i < n.inputCount → n.inputs i = some (sId, o) →
      sId ∈ idsOf l1

/-- A fresh 1-in/1-out node with id 0. -/
def freshA : Node := ⟨0, 1, 1, fun _ => none, fun _ => []⟩

/-- A fresh 1-in/1-out node with id 1. -/
def freshB : Node := ⟨1, 1, 1, fun _ => none, fun _ => []⟩

/-- Two fresh nodes, no connections. -/
def gFresh : Graph := [freshA, freshB]

/-- Node 0 feeding node 1 from its output port 0. -/
def nodeA : Node :=
  ⟨0, 1, 1, fun _ => none, fun o => if o = 0 then [(1, 0)] else []⟩

/-- Node 1 fed on input port 0 by node 0's output port 0. -/
def nodeB : Node :=
  ⟨1, 1, 1, fun i => if i = 0 then some (0, 0) else none, fun _ => []⟩

/-- Two nodes holding the single edge `(0, 0) → (1, 0)`. -/
def gAB : Graph := [nodeA, nodeB]

/-- Node 0 of a two-cycle. -/
def cycA : Node :=
  ⟨0, 1, 1, fun i => if i = 0 then some (1, 0) else none,
    fun o => if o = 0 then [(1, 0)] else []⟩

/-- Node 1 of a two-cycle. -/
def cycB : Node :=
  ⟨1, 1, 1, fun i => if i = 0 then some (0, 0) else none,
    fun o => if o = 0 then [(0, 0)] else []⟩

/-- Two nodes wired into a 2-cycle, with consistent two-sided bookkeeping
(such a state is constructible with node-level `connectOutput` calls). -/
def gCyc : Graph := [cycA, cycB]

/-! ### Theorems -/

theorem passRec_result_length (nodes : List Node) :
    ∀ result processed found,
      result.length ≤ (passRec nodes result processed found).1.length ∧
      ((passRec nodes result processed found).2.2 = true →
        found = true ∨ result.length < (passRec nodes result processed found).1.length) := by
  induction nodes with
  | nil => intro result processed found; simp [passRec]
  | cons n rest ih =>
    intro result processed found
    simp only [passRec]
    by_cases h1 : n.id ∈ processed
    · simp [h1]; exact ih result processed found
    · by_cases h2 : hasUnprocessedDependencies n processed
      · simp [h1, h2]; exact ih result processed found
      · simp [h1, h2]
        refine ⟨?_, ?_⟩
        · have := (ih (result ++ [n]) (n.id :: processed) true).1
          simp at this; omega
        · intro _
          have := (ih (result ++ [n]) (n.id :: processed) true).1
          simp at this; omega

theorem onePass_found_length (g : Graph) (result : List Node) (processed : List Int)
    (h : (onePass g result processed).2.2 = true) :
    result.length < (onePass g result processed).1.length := by
  rcases (passRec_result_length g result processed false).2 h with h' | h'
  · exact absurd h' (by simp)
  · exact h'

theorem getNode_mem {g : Graph} {i : Int} {n : Node} (h : getNode g i = some n) :
    n ∈ g :=
  List.mem_of_find?_eq_some h

theorem getNode_id {g : Graph} {i : Int} {n : Node} (h : getNode g i = some n) :
    n.id = i := by
  have := List.find?_some h
  simpa using this

theorem mem_id_unique {g : Graph} (hnd : (idsOf g).Nodup) {m n : Node}
    (hm : m ∈ g) (hn : n ∈ g) (h : m.id = n.id) : m = n := by
  induction g with
  | nil => cases hm
  | cons a l ih =>
    simp only [idsOf, List.map_cons, List.nodup_cons] at hnd
    rcases List.mem_cons.1 hm with rfl | hm' <;>
      rcases List.mem_cons.1 hn with rfl | hn'
    · rfl
    · exact absurd (h ▸ List.mem_map_of_mem (fun x => x.id) hn') hnd.1
    · exact absurd (h ▸ List.mem_map_of_mem (fun x => x.id) hm') hnd.1
    · exact ih hnd.2 hm' hn'

theorem getNode_of_mem {g : Graph} (hnd : (idsOf g).Nodup) {n : Node}
    (hn : n ∈ g) : getNode g n.id = some n := by
  induction g with
  | nil => cases hn
  | cons a l ih =>
    simp only [idsOf, List.map_cons, List.nodup_cons] at hnd
    rcases List.mem_cons.1 hn with rfl | hn'
    · simp [getNode]
    · have hne : (a.id == n.id) = false := by
        simp only [beq_eq_false_iff_ne, ne_eq]
        intro h
        exact hnd.1 (h ▸ List.mem_map_of_mem (fun x => x.id) hn')
      simp only [getNode, List.find?_cons, hne]
      exact ih hnd.2 hn'

theorem getNode_map_of_id {g : Graph} (φ : Node → Node)
    (hφ : ∀ n, (φ n).id = n.id) (j : Int) :
    getNode (g.map φ) j = (getNode g j).map φ := by
  have hp : ((fun n => n.id == j) ∘ φ) = fun n => n.id == j := by
    funext n
    simp [Function.comp, hφ]
  simp only [getNode, List.find?_map, hp]

theorem idsOf_map_of_id {g : Graph} (φ : Node → Node)
    (hφ : ∀ n, (φ n).id = n.id) : idsOf (g.map φ) = idsOf g := by
  simp only [idsOf, List.map_map]
  exact List.map_congr_left fun n _ => hφ n

/-- In an `Inv` state, an entry recorded on a source's output side never
feeds an input slot that is currently unoccupied. -/
theorem Inv.not_mem_of_unoccupied {g : Graph} (hInv : Inv g) {s t : Node}
    (hs : s ∈ g) (ht : t ∈ g) {o i : Int} (hocc : t.inputs i = none) :
    (t.id, i) ∉ s.outputs o := by
  intro hmem
  obtain ⟨t', ht', hid, hconn⟩ := hInv.outEdge s hs o t.id i hmem
  have : t' = t := mem_id_unique hInv.nodup ht' ht hid
  rw [this, hocc] at hconn
  cases hconn

@[simp] theorem connectUpd_id (sId o tId i : Int) (n : Node) :
    (connectUpd sId o tId i n).id = n.id := by
  unfold connectUpd
  split <;> split <;> rfl

@[simp] theorem connectUpd_inputCount (sId o tId i : Int) (n : Node) :
    (connectUpd sId o tId i n).inputCount = n.inputCount := by
  unfold connectUpd
  split <;> split <;> rfl

@[simp] theorem connectUpd_outputCount (sId o tId i : Int) (n : Node) :
    (connectUpd sId o tId i n).outputCount = n.outputCount := by
  unfold connectUpd
  split <;> split <;> rfl

theorem connectUpd_inputs (sId o tId i : Int) (n : Node) (i' : Int) :
    (connectUpd sId o tId i n).inputs i' =
      if n.id = tId ∧ i' = i then some (sId, o) else n.inputs i' := by
  unfold connectUpd
  by_cases h1 : n.id = sId <;> by_cases h2 : n.id = tId <;>
    by_cases h3 : i' = i
  all_goals
    first
    | (have h12 : sId = tId := by rw [← h1, h2]
       simp [h1, h2, h3, h12])
    | (have h12 : ¬ sId = tId := fun hh => h2 (by rw [h1, hh])
       simp [h1, h2, h3, h12])
    | (have h21 : ¬ tId = sId := fun hh => h1 (by rw [h2, hh])
       simp [h1, h2, h3, h21])
    | simp [h1, h2, h3]

theorem connectUpd_outputs (sId o tId i : Int) (n : Node) (o' : Int) :
    (connectUpd sId o tId i n).outputs o' =
      if n.id = sId ∧ o' = o then n.outputs o' ++ [(tId, i)]
      else n.outputs o' := by
  unfold connectUpd
  by_cases h1 : n.id = sId <;> by_cases h2 : n.id = tId <;>
    by_cases h3 : o' = o
  all_goals
    first
    | (have h12 : sId = tId := by rw [← h1, h2]
       simp [h1, h2, h3, h12])
    | (have h12 : ¬ sId = tId := fun hh => h2 (by rw [h1, hh])
       simp [h1, h2, h3, h12])
    | (have h21 : ¬ tId = sId := fun hh => h1 (by rw [h2, hh])
       simp [h1, h2, h3, h21])
    | simp [h1, h2, h3]

@[simp] theorem disconnectUpd_id (sId o tId i : Int) (n : Node) :
    (disconnectUpd sId o tId i n).id = n.id := by
  unfold disconnectUpd
  split <;> split <;> rfl

@[simp] theorem disconnectUpd_inputCount (sId o tId i : Int) (n : Node) :
    (disconnectUpd sId o tId i n).inputCount = n.inputCount := by
  unfold disconnectUpd
  split <;> split <;> rfl

@[simp] theorem disconnectUpd_outputCount (sId o tId i : Int) (n : Node) :
    (disconnectUpd sId o tId i n).outputCount = n.outputCount := by
  unfold disconnectUpd
  split <;> split <;> rfl

theorem disconnectUpd_inputs (sId o tId i : Int) (n : Node) (i' : Int) :
    (disconnectUpd sId o tId i n).inputs i' =
      if n.id = tId ∧ i' = i then none else n.inputs i' := by
  unfold disconnectUpd
  by_cases h1 : n.id = sId <;> by_cases h2 : n.id = tId <;>
    by_cases h3 : i' = i
  all_goals
    first
    | (have h12 : sId = tId := by rw [← h1, h2]
       simp [h1, h2, h3, h12])
    | (have h12 : ¬ sId = tId := fun hh => h2 (by rw [h1, hh])
       simp [h1, h2, h3, h12])
    | (have h21 : ¬ tId = sId := fun hh => h1 (by rw [h2, hh])
       simp [h1, h2, h3, h21])
    | simp [h1, h2, h3]

theorem disconnectUpd_outputs (sId o tId i : Int) (n : Node) (o' : Int) :
    (disconnectUpd sId o tId i n).outputs o' =
      if n.id = sId ∧ o' = o then (n.outputs o').erase (tId, i)
      else n.outputs o' := by
  unfold disconnectUpd
  by_cases h1 : n.id = sId <;> by_cases h2 : n.id = tId <;>
    by_cases h3 : o' = o
  all_goals
    first
    | (have h12 : sId = tId := by rw [← h1, h2]
       simp [h1, h2, h3, h12])
    | (have h12 : ¬ sId = tId := fun hh => h2 (by rw [h1, hh])
       simp [h1, h2, h3, h12])
    | (have h21 : ¬ tId = sId := fun hh => h1 (by rw [h2, hh])
       simp [h1, h2, h3, h21])
    | simp [h1, h2, h3]

theorem connectOutput_success {g : Graph} {sId o tId i : Int} {s t : Node}
    (hs : getNode g sId = some s) (ht : getNode g tId = some t)
    (hro : 0 ≤ o ∧ o < s.outputCount) (hri : 0 ≤ i ∧ i < t.inputCount)
    (hocc : t.inputs i = none) :
    connectOutput g sId o tId i = (true, g.map (connectUpd sId o tId i)) := by
  have hcond : ¬(o < 0 ∨ o ≥ s.outputCount ∨ i < 0 ∨ i ≥ t.inputCount) := by
    push_neg
    exact ⟨by omega, by omega, by omega, by omega⟩
  simp only [connectOutput, hs, ht, hcond, if_neg, ite_false, hocc,
    Option.isSome_none, Bool.false_eq_true, if_false]
  congr 1
  simp only [updNode, List.map_map]
  apply List.map_congr_left
  intro n _
  simp only [Function.comp_apply]
  unfold connectUpd
  by_cases h1 : n.id = sId <;> by_cases h2 : n.id = tId
  all_goals
    first
    | (have h12 : sId = tId := by rw [← h1, h2]
       simp [h1, h2, h12])
    | (have h12 : ¬ sId = tId := fun hh => h2 (by rw [h1, hh])
       simp [h1, h2, h12])
    | (have h21 : ¬ tId = sId := fun hh => h1 (by rw [h2, hh])
       simp [h1, h2, h21])
    | simp [h1, h2]

theorem disconnectOutput_success {g : Graph} {sId o tId i : Int} {s t : Node}
    (hs : getNode g sId = some s) (ht : getNode g tId = some t)
    (hmem : (tId, i) ∈ s.outputs o) :
    disconnectOutput g sId o tId i =
      (true, g.map (disconnectUpd sId o tId i)) := by
  simp only [disconnectOutput, hs, ht, hmem, if_pos]
  congr 1
  simp only [updNode, List.map_map]
  apply List.map_congr_left
  intro n _
  simp only [Function.comp_apply]
  unfold disconnectUpd
  by_cases h1 : n.id = sId <;> by_cases h2 : n.id = tId
  all_goals
    first
    | (have h12 : sId = tId := by rw [← h1, h2]
       simp [h1, h2, h12])
    | (have h12 : ¬ sId = tId := fun hh => h2 (by rw [h1, hh])
       simp [h1, h2, h12])
    | (have h21 : ¬ tId = sId := fun hh => h1 (by rw [h2, hh])
       simp [h1, h2, h21])
    | simp [h1, h2]

theorem Inv.connect {g : Graph} (hInv : Inv g) {sId o tId i : Int} {s t : Node}
    (hs : getNode g sId = some s) (ht : getNode g tId = some t)
    (hro : 0 ≤ o ∧ o < s.outputCount) (hri : 0 ≤ i ∧ i < t.inputCount)
    (hocc : t.inputs i = none) :
    Inv (g.map (connectUpd sId o tId i)) := by
  have hsmem := getNode_mem hs
  have htmem := getNode_mem ht
  have hsid := getNode_id hs
  have htid := getNode_id ht
  have hφ : ∀ n, (connectUpd sId o tId i n).id = n.id :=
    fun n => connectUpd_id sId o tId i n
  refine ⟨?_, ?_, ?_, ?_, ?_⟩
  · rw [idsOf_map_of_id _ hφ]
    exact hInv.nodup
  · intro t' ht' i' sId' o' hin
    obtain ⟨m, hm, rfl⟩ := List.mem_map.1 ht'
    rw [connectUpd_inputs] at hin
    by_cases hc : m.id = tId ∧ i' = i
    · rw [if_pos hc] at hin
      have hp : sId = sId' ∧ o = o' := by simpa using hin
      obtain ⟨rfl, rfl⟩ := hp
      have hmt : m = t := mem_id_unique hInv.nodup hm htmem (hc.1.trans htid.symm)
      refine ⟨connectUpd sId o tId i s, List.mem_map_of_mem _ hsmem,
        by simp [hsid], ?_, hro.1, by simpa using hro.2, by rw [hc.2]; exact hri.1, ?_⟩
      · rw [connectUpd_outputs, if_pos ⟨hsid, rfl⟩]
        apply List.mem_append_right
        simp [hc.1, hc.2]
      · rw [hc.2, connectUpd_inputCount, hmt]
        exact hri.2
    · rw [if_neg hc] at hin
      obtain ⟨s', hs', hid', hmm', h1, h2, h3, h4⟩ := hInv.inEdge m hm i' sId' o' hin
      refine ⟨connectUpd sId o tId i s', List.mem_map_of_mem _ hs',
        by simp [hid'], ?_, h1, by simpa using h2, h3, by simpa using h4⟩
      rw [connectUpd_outputs]
      by_cases hd : s'.id = sId ∧ o' = o
      · rw [if_pos hd]
        exact List.mem_append_left _ (by simpa using hmm')
      · rw [if_neg hd]
        simpa using hmm'
  · intro s' hs' o' tId' i' hmem
    obtain ⟨m, hm, rfl⟩ := List.mem_map.1 hs'
    rw [connectUpd_outputs] at hmem
    by_cases hc : m.id = sId ∧ o' = o
    · rw [if_pos hc] at hmem
      rcases List.mem_append.1 hmem with hold | hnew
      · obtain ⟨t', ht', htid', hconn⟩ := hInv.outEdge m hm o' tId' i' hold
        refine ⟨connectUpd sId o tId i t', List.mem_map_of_mem _ ht',
          by simp [htid'], ?_⟩
        rw [connectUpd_inputs]
        by_cases hd : t'.id = tId ∧ i' = i
        · exfalso
          have ht't : t' = t := mem_id_unique hInv.nodup ht' htmem (hd.1.trans htid.symm)
          rw [ht't, hd.2, hocc] at hconn
          cases hconn
        · rw [if_neg hd]
          simpa using hconn
      · have hp : tId' = tId ∧ i' = i := by simpa using hnew
        refine ⟨connectUpd sId o tId i t, List.mem_map_of_mem _ htmem,
          by simp [htid, hp.1], ?_⟩
        rw [connectUpd_inputs, if_pos ⟨htid, hp.2⟩]
        simp [hc.1, hc.2]
    · rw [if_neg hc] at hmem
      obtain ⟨t', ht', htid', hconn⟩ := hInv.outEdge m hm o' tId' i' hmem
      refine ⟨connectUpd sId o tId i t', List.mem_map_of_mem _ ht',
        by simp [htid'], ?_⟩
      rw [connectUpd_inputs]
      by_cases hd : t'.id = tId ∧ i' = i
      · exfalso
        have ht't : t' = t := mem_id_unique hInv.nodup ht' htmem (hd.1.trans htid.symm)
        rw [ht't, hd.2, hocc] at hconn
        cases hconn
      · rw [if_neg hd]
        simpa using hconn
  · intro s' hs' o' hnr
    obtain ⟨m, hm, rfl⟩ := List.mem_map.1 hs'
    simp only [connectUpd_outputCount] at hnr
    rw [connectUpd_outputs]
    by_cases hc : m.id = sId ∧ o' = o
    · exfalso
      have hms : m = s := mem_id_unique hInv.nodup hm hsmem (hc.1.trans hsid.symm)
      exact hnr ⟨hc.2 ▸ hro.1, by rw [hc.2, hms]; exact hro.2⟩
    · rw [if_neg hc]
      exact hInv.outRange m hm o' hnr
  · intro s' hs' o'
    obtain ⟨m, hm, rfl⟩ := List.mem_map.1 hs'
    rw [connectUpd_outputs]
    by_cases hc : m.id = sId ∧ o' = o
    · rw [if_pos hc]
      have hnm : (tId, i) ∉ m.outputs o' := by
        have := @Inv.not_mem_of_unoccupied _ hInv _ _ hm htmem o' i hocc
        rwa [htid] at this
      rw [← List.concat_eq_append]
      exact List.Nodup.concat hnm (hInv.outNodup m hm o')
    · rw [if_neg hc]
      exact hInv.outNodup m hm o'

theorem Inv.disconnect {g : Graph} (hInv : Inv g) {sId o tId i : Int} {s t : Node}
    (hs : getNode g sId = some s) (ht : getNode g tId = some t)
    (hmem : (tId, i) ∈ s.outputs o) :
    Inv (g.map (disconnectUpd sId o tId i)) := by
  have hsmem := getNode_mem hs
  have htmem := getNode_mem ht
  have hsid := getNode_id hs
  have htid := getNode_id ht
  have hφ : ∀ n, (disconnectUpd sId o tId i n).id = n.id :=
    fun n => disconnectUpd_id sId o tId i n
  have hconn0 : t.inputs i = some (sId, o) := by
    obtain ⟨t', ht', htid', hconn⟩ := hInv.outEdge s hsmem o tId i hmem
    have : t' = t := mem_id_unique hInv.nodup ht' htmem (htid'.trans htid.symm)
    rw [← this, hconn, hsid]
  refine ⟨?_, ?_, ?_, ?_, ?_⟩
  · rw [idsOf_map_of_id _ hφ]
    exact hInv.nodup
  · intro t' ht' i' sId' o' hin
    obtain ⟨m, hm, rfl⟩ := List.mem_map.1 ht'
    rw [disconnectUpd_inputs] at hin
    by_cases hc : m.id = tId ∧ i' = i
    · rw [if_pos hc] at hin
      cases hin
    · rw [if_neg hc] at hin
      obtain ⟨s', hs', hid', hmm', h1, h2, h3, h4⟩ := hInv.inEdge m hm i' sId' o' hin
      refine ⟨disconnectUpd sId o tId i s', List.mem_map_of_mem _ hs',
        by simp [hid'], ?_, h1, by simpa using h2, h3, by simpa using h4⟩
      rw [disconnectUpd_outputs]
      by_cases hd : s'.id = sId ∧ o' = o
      · rw [if_pos hd]
        have hne : ((connectUpd sId o tId i m).id, i') ≠ (tId, i) := by
          simp only [connectUpd_id]
          intro hcon
          exact hc ⟨(Prod.mk.injEq _ _ _ _ ▸ hcon).1, (Prod.mk.injEq _ _ _ _ ▸ hcon).2⟩
        have hne' : (m.id, i') ≠ (tId, i) := by
          intro hcon
          apply hc
          exact ⟨congrArg Prod.fst hcon, congrArg Prod.snd hcon⟩
        simpa using List.mem_erase_of_ne hne' |>.2 (by simpa using hmm')
      · rw [if_neg hd]
        simpa using hmm'
  · intro s' hs' o' tId' i' hmem'
    obtain ⟨m, hm, rfl⟩ := List.mem_map.1 hs'
    rw [disconnectUpd_outputs] at hmem'
    by_cases hc : m.id = sId ∧ o' = o
    · rw [if_pos hc] at hmem'
      have hms : m = s := mem_id_unique hInv.nodup hm hsmem (hc.1.trans hsid.symm)
      have hold := List.mem_of_mem_erase hmem'
      obtain ⟨t', ht', htid', hconn⟩ := hInv.outEdge m hm o' tId' i' hold
      refine ⟨disconnectUpd sId o tId i t', List.mem_map_of_mem _ ht',
        by simp [htid'], ?_⟩
      rw [disconnectUpd_inputs]
      by_cases hd : t'.id = tId ∧ i' = i
      · exfalso
        have hdup : (tId, i) ∈ (m.outputs o').erase (tId, i) := by
          have : (tId', i') = (tId, i) := by rw [← htid', hd.1, hd.2]
          rwa [this] at hmem'
        exact (hInv.outNodup m hm o').not_mem_erase hdup
      · rw [if_neg hd]
        simpa using hconn
    · rw [if_neg hc] at hmem'
      obtain ⟨t', ht', htid', hconn⟩ := hInv.outEdge m hm o' tId' i' hmem'
      refine ⟨disconnectUpd sId o tId i t', List.mem_map_of_mem _ ht',
        by simp [htid'], ?_⟩
      rw [disconnectUpd_inputs]
      by_cases hd : t'.id = tId ∧ i' = i
      · exfalso
        have ht't : t' = t := mem_id_unique hInv.nodup ht' htmem (hd.1.trans htid.symm)
        rw [ht't, hd.2, hconn0] at hconn
        have : m.id = sId ∧ o' = o := by
          have h1 : sId = m.id ∧ o = o' := by simpa using hconn
          exact ⟨h1.1.symm, h1.2.symm⟩
        exact hc this
      · rw [if_neg hd]
        simpa using hconn
  · intro s' hs' o' hnr
    obtain ⟨m, hm, rfl⟩ := List.mem_map.1 hs'
    simp only [disconnectUpd_outputCount] at hnr
    rw [disconnectUpd_outputs]
    by_cases hc : m.id = sId ∧ o' = o
    · rw [if_pos hc, hInv.outRange m hm o' hnr]
      rfl
    · rw [if_neg hc]
      exact hInv.outRange m hm o' hnr
  · intro s' hs' o'
    obtain ⟨m, hm, rfl⟩ := List.mem_map.1 hs'
    rw [disconnectUpd_outputs]
    by_cases hc : m.id = sId ∧ o' = o
    · rw [if_pos hc]
      exact (hInv.outNodup m hm o').erase _
    · rw [if_neg hc]
      exact hInv.outNodup m hm o'

/-- Rolling the freshly made connection back restores the pre-connection
state exactly: `disconnectOutput` with the same arguments succeeds and the
resulting graph is the original one. -/
theorem connect_rollback {g : Graph} (hInv : Inv g) {sId o tId i : Int} {s t : Node}
    (hs : getNode g sId = some s) (ht : getNode g tId = some t)
    (hro : 0 ≤ o ∧ o < s.outputCount) (hri : 0 ≤ i ∧ i < t.inputCount)
    (hocc : t.inputs i = none) :
    disconnectOutput (g.map (connectUpd sId o tId i)) sId o tId i = (true, g) := by
  have hsmem := getNode_mem hs
  have htmem := getNode_mem ht
  have hsid := getNode_id hs
  have htid := getNode_id ht
  have hφ : ∀ n, (connectUpd sId o tId i n).id = n.id :=
    fun n => connectUpd_id sId o tId i n
  have hs2 : getNode (g.map (connectUpd sId o tId i)) sId
      = some (connectUpd sId o tId i s) := by
    rw [getNode_map_of_id _ hφ, hs, Option.map_some']
  have ht2 : getNode (g.map (connectUpd sId o tId i)) tId
      = some (connectUpd sId o tId i t) := by
    rw [getNode_map_of_id _ hφ, ht, Option.map_some']
  have hmem2 : (tId, i) ∈ (connectUpd sId o tId i s).outputs o := by
    rw [connectUpd_outputs, if_pos ⟨hsid, rfl⟩]
    exact List.mem_append_right _ (by simp)
  rw [disconnectOutput_success hs2 ht2 hmem2]
  congr 1
  rw [List.map_map]
  have hpt : ∀ n ∈ g, (disconnectUpd sId o tId i ∘ connectUpd sId o tId i) n = n := by
    intro n hn
    simp only [Function.comp_apply]
    refine Node.ext ?_ ?_ ?_ ?_ ?_
    · simp
    · simp
    · simp
    · funext i'
      rw [disconnectUpd_inputs, connectUpd_id, connectUpd_inputs]
      by_cases hc : n.id = tId ∧ i' = i
      · rw [if_pos hc]
        have hnt : n = t := mem_id_unique hInv.nodup hn htmem (hc.1.trans htid.symm)
        rw [hnt, hc.2, hocc]
      · rw [if_neg hc, if_neg hc]
    · funext o'
      rw [disconnectUpd_outputs, connectUpd_id, connectUpd_outputs]
      by_cases hc : n.id = sId ∧ o' = o
      · rw [if_pos hc, if_pos hc]
        have hns : n = s := mem_id_unique hInv.nodup hn hsmem (hc.1.trans hsid.symm)
        have hnm : (tId, i) ∉ n.outputs o' := by
          have := @Inv.not_mem_of_unoccupied _ hInv _ _ hn htmem o' i hocc
          rwa [htid] at this
        rw [List.erase_append_right _ hnm]
        simp
      · rw [if_neg hc, if_neg hc]
  rw [List.map_congr_left hpt, List.map_id']

theorem connectNodes_src_missing {g : Graph} {a o b i : Int}
    (h : getNode g a = none) : connectNodes g a o b i = (false, g) := by
  cases hgt : getNode g b <;> simp [connectNodes, h, hgt]

theorem connectNodes_tgt_missing {g : Graph} {a o b i : Int}
    (h : getNode g b = none) : connectNodes g a o b i = (false, g) := by
  cases hgs : getNode g a <;> simp [connectNodes, h, hgs]

theorem connectNodes_bad_range {g : Graph} {a o b i : Int} {s t : Node}
    (hgs : getNode g a = some s) (hgt : getNode g b = some t)
    (h : o < 0 ∨ o ≥ s.outputCount ∨ i < 0 ∨ i ≥ t.inputCount) :
    connectNodes g a o b i = (false, g) := by
  simp only [connectNodes, hgs, hgt, if_pos h]

theorem connectNodes_occupied {g : Graph} {a o b i : Int} {s t : Node}
    (hgs : getNode g a = some s) (hgt : getNode g b = some t)
    (hocc : (t.inputs i).isSome) :
    connectNodes g a o b i = (false, g) := by
  by_cases h : o < 0 ∨ o ≥ s.outputCount ∨ i < 0 ∨ i ≥ t.inputCount
  · exact connectNodes_bad_range hgs hgt h
  · simp only [connectNodes, hgs, hgt, if_neg h, hocc, if_true]

theorem connectNodes_checks_pass {g : Graph} {a o b i : Int} {s t : Node}
    (hInv : Inv g)
    (hgs : getNode g a = some s) (hgt : getNode g b = some t)
    (hro : 0 ≤ o ∧ o < s.outputCount) (hri : 0 ≤ i ∧ i < t.inputCount)
    (hocc : t.inputs i = none) :
    connectNodes g a o b i =
      if containsCycles (g.map (connectUpd a o b i)) then (false, g)
      else (true, g.map (connectUpd a o b i)) := by
  have hcond : ¬(o < 0 ∨ o ≥ s.outputCount ∨ i < 0 ∨ i ≥ t.inputCount) := by
    push_neg
    exact ⟨by omega, by omega, by omega, by omega⟩
  have hco := connectOutput_success hgs hgt hro hri hocc
  have hrb := connect_rollback hInv hgs hgt hro hri hocc
  simp only [connectNodes, hgs, hgt, if_neg hcond, hocc, Option.isSome_none,
    Bool.false_eq_true, if_false, hco, hrb, true_and]

theorem disconnectNodes_eq {g : Graph} {a o b i : Int} {s t : Node}
    (hgs : getNode g a = some s) (hgt : getNode g b = some t) :
    disconnectNodes g a o b i = disconnectOutput g a o b i := by
  simp [disconnectNodes, hgs, hgt]

theorem disconnectOutput_fail {g : Graph} {a o b i : Int} {s t : Node}
    (hgs : getNode g a = some s) (hgt : getNode g b = some t)
    (h : (b, i) ∉ s.outputs o) : disconnectOutput g a o b i = (false, g) := by
  simp [disconnectOutput, hgs, hgt, h]

theorem Inv.connectNodes {g : Graph} (hInv : Inv g) (a o b i : Int) :
    Inv (connectNodes g a o b i).2 := by
  cases hgs : getNode g a with
  | none => rw [connectNodes_src_missing hgs]; exact hInv
  | some s =>
    cases hgt : getNode g b with
    | none => rw [connectNodes_tgt_missing hgt]; exact hInv
    | some t =>
      by_cases hr : o < 0 ∨ o ≥ s.outputCount ∨ i < 0 ∨ i ≥ t.inputCount
      · rw [connectNodes_bad_range hgs hgt hr]; exact hInv
      · by_cases hocc : (t.inputs i).isSome
        · rw [connectNodes_occupied hgs hgt hocc]; exact hInv
        · have hocc' : t.inputs i = none := Option.not_isSome_iff_eq_none.1 hocc
          push_neg at hr
          obtain ⟨h1, h2, h3, h4⟩ := hr
          rw [connectNodes_checks_pass hInv hgs hgt ⟨by omega, by omega⟩
            ⟨by omega, by omega⟩ hocc']
          by_cases hcc : containsCycles (g.map (connectUpd a o b i)) = true
          · rw [if_pos hcc]
            exact hInv
          · rw [if_neg hcc]
            exact hInv.connect hgs hgt ⟨by omega, by omega⟩ ⟨by omega, by omega⟩ hocc'

theorem Inv.disconnectNodes {g : Graph} (hInv : Inv g) (a o b i : Int) :
    Inv (disconnectNodes g a o b i).2 := by
  cases hgs : getNode g a with
  | none =>
    cases hgt : getNode g b <;>
      (simp only [NodeEngine.disconnectNodes, hgs, hgt]; exact hInv)
  | some s =>
    cases hgt : getNode g b with
    | none => simp only [NodeEngine.disconnectNodes, hgs, hgt]; exact hInv
    | some t =>
      rw [disconnectNodes_eq hgs hgt]
      by_cases hmem : (b, i) ∈ s.outputs o
      · rw [disconnectOutput_success hgs hgt hmem]
        exact hInv.disconnect hgs hgt hmem
      · rw [disconnectOutput_fail hgs hgt hmem]
        exact hInv

theorem fresh_inv {g : Graph} (h : Fresh g) : Inv g := by
  refine ⟨h.1, ?_, ?_, ?_, ?_⟩
  · intro t ht i sId o hin
    rw [(h.2 t ht).1 i] at hin
    cases hin
  · intro s hs o tId i hmem
    rw [(h.2 s hs).2 o] at hmem
    cases hmem
  · intro s hs o _
    exact (h.2 s hs).2 o
  · intro s hs o
    rw [(h.2 s hs).2 o]
    exact List.nodup_nil

theorem reachable_inv {g0 g : Graph} (h0 : Fresh g0) (h : Reachable g0 g) :
    Inv g := by
  induction h with
  | base => exact fresh_inv h0
  | connect a o b i _ ih => exact ih.connectNodes a o b i
  | disconnect a o b i _ ih => exact ih.disconnectNodes a o b i

/-- C1 (referential integrity of connections). For every graph state
reachable from a fresh node collection by any sequence of `connectNodes` /
`disconnectNodes` calls, an edge `(source, outputPort) → (target, inputPort)`
is recorded in the source's outputs table iff the matching entry is recorded
in the target's inputs table at that input port — no orphaned half-edges on
either side. -/
theorem reachable_referential_integrity {g0 g : Graph}
    (h0 : Fresh g0) (h : Reachable g0 g) :
    ∀ s ∈ g, ∀ t ∈ g, ∀ o i,
      ((t.id, i) ∈ s.outputs o ↔ t.inputs i = some (s.id, o)) := by
  have hInv : Inv g := reachable_inv h0 h
  intro s hs t ht o i
  constructor
  · intro hmem
    obtain ⟨t', ht', htid', hconn⟩ := hInv.outEdge s hs o t.id i hmem
    rwa [mem_id_unique hInv.nodup ht' ht htid'] at hconn
  · intro hconn
    obtain ⟨s', hs', hsid', hmm', _, _, _, _⟩ := hInv.inEdge t ht i s.id o hconn
    rwa [mem_id_unique hInv.nodup hs' hs hsid'] at hmm'

/-- C5 (failed connection leaves state unchanged). A `connectNodes` call
with an out-of-range output or input port returns false and leaves the
graph — in particular both nodes' connection tables — unchanged; a call
whose target input is already occupied also returns false, leaves the graph
unchanged, and so keeps the prior connection on that input intact. -/
theorem connectNodes_fail_unchanged {g : Graph} {a o b i : Int} {s t : Node}
    (hgs : getNode g a = some s) (hgt : getNode g b = some t) :
    ((o < 0 ∨ o ≥ s.outputCount ∨ i < 0 ∨ i ≥ t.inputCount) →
      connectNodes g a o b i = (false, g)) ∧
    (∀ src, t.inputs i = some src →
      connectNodes g a o b i = (false, g) ∧ t.inputs i = some src) := by
  constructor
  · intro h
    exact connectNodes_bad_range hgs hgt h
  · intro src hsrc
    refine ⟨connectNodes_occupied hgs hgt ?_, hsrc⟩
    rw [hsrc]
    rfl

theorem unvis_le (g : Graph) (v : List Int) : unvis g v ≤ g.length := by
  calc ((idsOf g).filter _).length ≤ (idsOf g).length :=
        (List.filter_sublist _).length_le
    _ = g.length := by simp [idsOf]

theorem unvis_mono (g : Graph) {v v' : List Int} (h : ∀ x ∈ v, x ∈ v') :
    unvis g v' ≤ unvis g v := by
  apply List.Sublist.length_le
  apply List.monotone_filter_right
  intro x hx
  simp only [decide_eq_true_eq] at hx ⊢
  intro hv
  exact hx (h x hv)

theorem unvis_cons_lt (g : Graph) {v : List Int} {nodeId : Int}
    (hmem : nodeId ∈ idsOf g) (hnv : nodeId ∉ v) :
    unvis g (nodeId :: v) < unvis g v := by
  have hsub : ((idsOf g).filter fun x => decide (x ∉ nodeId :: v)).Sublist
      ((idsOf g).filter fun x => decide (x ∉ v)) := by
    apply List.monotone_filter_right
    intro x hx
    simp only [decide_eq_true_eq, List.mem_cons, not_or] at hx ⊢
    exact hx.2
  rcases Nat.lt_or_ge (((idsOf g).filter fun x => decide (x ∉ nodeId :: v)).length)
      (((idsOf g).filter fun x => decide (x ∉ v)).length) with h | h
  · exact h
  · exfalso
    have heq := hsub.eq_of_length_le h
    have h1 : nodeId ∈ (idsOf g).filter fun x => decide (x ∉ v) := by
      simp only [List.mem_filter, decide_eq_true_eq]
      exact ⟨hmem, hnv⟩
    rw [← heq] at h1
    have h2 := (List.mem_filter.1 h1).2
    simp at h2

theorem getNode_of_mem_ids {g : Graph} (hnd : (idsOf g).Nodup) {a : Int}
    (ha : a ∈ idsOf g) : ∃ n, getNode g a = some n ∧ n ∈ g ∧ n.id = a := by
  obtain ⟨n, hn, rfl⟩ := List.mem_map.1 ha
  exact ⟨n, getNode_of_mem hnd hn, hn, rfl⟩

theorem mem_succIds {n : Node} {b : Int} :
    b ∈ succIds n ↔ ∃ o i, 0 ≤ o ∧ o < n.outputCount ∧ (b, i) ∈ n.outputs o := by
  unfold succIds
  simp only [List.mem_flatMap, List.mem_range, List.mem_map]
  constructor
  · rintro ⟨k, hk, p, hp, rfl⟩
    refine ⟨(k : Int), p.2, by omega, by omega, ?_⟩
    rwa [show (p.1, p.2) = p from rfl]
  · rintro ⟨o, i, h0, hlt, hmem⟩
    refine ⟨o.toNat, by omega, (b, i), ?_, rfl⟩
    rwa [show ((o.toNat : Nat) : Int) = o by omega]

theorem edge_source_mem {g : Graph} {a b : Int} (h : Edge g a b) :
    a ∈ idsOf g := by
  obtain ⟨n, hn, rfl, _⟩ := h
  exact List.mem_map_of_mem _ hn

theorem edge_target_mem {g : Graph} (hInv : Inv g) {a b : Int}
    (h : Edge g a b) : b ∈ idsOf g := by
  obtain ⟨n, hn, rfl, hb⟩ := h
  obtain ⟨o, i, _, _, hmem⟩ := mem_succIds.1 hb
  obtain ⟨t, ht, htid, _⟩ := hInv.outEdge n hn o b i hmem
  exact htid ▸ List.mem_map_of_mem _ ht

theorem edge_iff_succ {g : Graph} (hnd : (idsOf g).Nodup) {a : Int} {node : Node}
    (hn : getNode g a = some node) :
    ∀ b, Edge g a b ↔ b ∈ succIds node := by
  intro b
  constructor
  · rintro ⟨n', hn', hid, hb⟩
    have : n' = node :=
      mem_id_unique hnd hn' (getNode_mem hn) (hid.trans (getNode_id hn).symm)
    rwa [← this]
  · intro hb
    exact ⟨node, getNode_mem hn, getNode_id hn, hb⟩

theorem rpath_snoc {R : Int → Int → Prop} {a b c : Int}
    (hp : RPath R a b) (he : R b c) : RPath R a c := by
  induction hp with
  | single h => exact RPath.cons h (RPath.single he)
  | cons h _ ih => exact RPath.cons h (ih he)

theorem closedF_path {g : Graph} {v s : List Int} (hc : ClosedF g v s)
    {a b : Int} (hp : RPath (Edge g) a b) (ha : a ∈ v) (has : a ∉ s) :
    b ∈ v ∧ b ∉ s := by
  induction hp with
  | single h => exact hc _ ha has _ h
  | cons h _ ih =>
    obtain ⟨h1, h2⟩ := hc _ ha has _ h
    exact ih h1 h2

theorem schain_path {g : Graph} : ∀ {l : List Int}, SChain g l →
    ∀ t ∈ l, ∀ h, l.head? = some h → t = h ∨ RPath (Edge g) t h := by
  intro l
  induction l with
  | nil => intro _ t ht; cases ht
  | cons x rest ih =>
    intro hch t ht h hh
    simp only [List.head?_cons, Option.some.injEq] at hh
    subst hh
    rcases List.mem_cons.1 ht with rfl | htr
    · exact Or.inl rfl
    · cases rest with
      | nil => cases htr
      | cons y rest' =>
        have h1 : Edge g y x ∧ SChain g (y :: rest') := by
          exact List.chain'_cons.1 hch
        rcases ih h1.2 t htr y rfl with rfl | hp
        · exact Or.inr (RPath.single h1.1)
        · exact Or.inr (rpath_snoc hp h1.1)

theorem detectCycle_succ_eq {g : Graph} {fuel : Nat} {id : Int}
    {v s : List Int} {node : Node} (hnode : getNode g id = some node) :
    detectCycle g (fuel + 1) id (v, s) =
      match dfsFold (dfsStep g fuel) (succIds node) (id :: v, id :: s) with
      | (true, st') => (true, st')
      | (false, st') => (false, (st'.1, st'.2.erase id)) := by
  conv_lhs => rw [detectCycle]
  rw [hnode]
  rfl

theorem dfsFold_nil (step : Int → List Int × List Int → Bool × (List Int × List Int))
    (st : List Int × List Int) : dfsFold step [] st = (false, st) := rfl

theorem dfsFold_cons (step : Int → List Int × List Int → Bool × (List Int × List Int))
    (t : Int) (ts : List Int) (st : List Int × List Int) :
    dfsFold step (t :: ts) st =
      match step t st with
      | (true, st') => (true, st')
      | (false, st') => dfsFold step ts st' := rfl

/-- On a `false` return, `detectCycle` has restored the recursion stack,
grown the visited set, and marked its argument visited. -/
theorem detectCycle_basic {g : Graph} (hInv : Inv g) :
    ∀ fuel, ∀ nodeId, ∀ v s : List Int,
      unvis g v < fuel → nodeId ∈ idsOf g → nodeId ∉ v → (∀ x ∈ s, x ∈ v) →
      (detectCycle g fuel nodeId (v, s)).1 = false →
      (∀ x ∈ v, x ∈ (detectCycle g fuel nodeId (v, s)).2.1) ∧
      nodeId ∈ (detectCycle g fuel nodeId (v, s)).2.1 ∧
      (detectCycle g fuel nodeId (v, s)).2.2 = s := by
  intro fuel
  induction fuel with
  | zero =>
    intro nodeId v s hf
    omega
  | succ fuel ih =>
    intro nodeId v s hf hid hnv hsv hres
    obtain ⟨node, hnode, hnmem, hnid⟩ := getNode_of_mem_ids hInv.nodup hid
    have hts0 : ∀ t ∈ succIds node, t ∈ idsOf g := by
      intro t htv
      exact edge_target_mem hInv ((edge_iff_succ hInv.nodup hnode t).2 htv)
    have hFOLD : ∀ ts v',
        (∀ t ∈ ts, t ∈ idsOf g) →
        (∀ x ∈ nodeId :: s, x ∈ v') →
        unvis g v' < fuel →
        ∀ res, dfsFold (dfsStep g fuel) ts (v', nodeId :: s) = res →
        res.1 = false →
        (∀ x ∈ v', x ∈ res.2.1) ∧ res.2.2 = nodeId :: s := by
      intro ts
      induction ts with
      | nil =>
        intro v' _ _ _ res hres' _
        rw [dfsFold_nil] at hres'
        subst hres'
        exact ⟨fun x hx => hx, rfl⟩
      | cons t rest ihts =>
        intro v' hts hsv' hfu res hres' hresf
        rw [dfsFold_cons] at hres'
        by_cases hvis : t ∈ v'
        · by_cases hstk : t ∈ nodeId :: s
          · have hstep : dfsStep g fuel t (v', nodeId :: s) = (true, (v', nodeId :: s)) := by
              simp [dfsStep, hvis, hstk]
            simp only [hstep] at hres'
            subst hres'
            simp at hresf
          · have hstep : dfsStep g fuel t (v', nodeId :: s) = (false, (v', nodeId :: s)) := by
              simp [dfsStep, hvis, hstk]
            simp only [hstep] at hres'
            exact ihts v' (fun x hx => hts x (List.mem_cons_of_mem _ hx))
              hsv' hfu res hres' hresf
        · have hstep : dfsStep g fuel t (v', nodeId :: s)
              = detectCycle g fuel t (v', nodeId :: s) := by
            simp [dfsStep, hvis]
          rcases hr : detectCycle g fuel t (v', nodeId :: s) with ⟨b, v2, s2⟩
          rw [hstep, hr] at hres'
          cases b with
          | true =>
            simp only [] at hres'
            subst hres'
            simp at hresf
          | false =>
            simp only [] at hres'
            have hcall := ih t v' (nodeId :: s) hfu
              (hts t (List.mem_cons_self t rest)) hvis hsv' (by rw [hr])
            rw [hr] at hcall
            obtain ⟨hmono, hmark, hrest⟩ := hcall
            simp only [] at hmono hmark hrest
            subst hrest
            obtain ⟨hmono2, hstk2⟩ := ihts v2
              (fun x hx => hts x (List.mem_cons_of_mem _ hx))
              (fun x hx => hmono x (hsv' x hx))
              (lt_of_le_of_lt (unvis_mono g hmono) hfu)
              res hres' hresf
            exact ⟨fun x hx => hmono2 x (hmono x hx), hstk2⟩
    have hsv0 : ∀ x ∈ nodeId :: s, x ∈ nodeId :: v := by
      intro x hx
      rcases List.mem_cons.1 hx with rfl | hx'
      · exact List.mem_cons_self _ _
      · exact List.mem_cons_of_mem _ (hsv x hx')
    have hfu0 : unvis g (nodeId :: v) < fuel := by
      have := unvis_cons_lt g hid hnv
      omega
    rcases hfold : dfsFold (dfsStep g fuel) (succIds node) (nodeId :: v, nodeId :: s)
      with ⟨b, v2, s2⟩
    cases b with
    | true =>
      have hdc : detectCycle g (fuel + 1) nodeId (v, s) = (true, (v2, s2)) := by
        rw [detectCycle_succ_eq hnode, hfold]
      rw [hdc] at hres
      simp at hres
    | false =>
      have hdc : detectCycle g (fuel + 1) nodeId (v, s)
          = (false, (v2, s2.erase nodeId)) := by
        rw [detectCycle_succ_eq hnode, hfold]
      obtain ⟨hmono, hstk⟩ := hFOLD (succIds node) (nodeId :: v) hts0 hsv0 hfu0
        (false, (v2, s2)) hfold rfl
      simp only [] at hmono hstk
      rw [hdc]
      refine ⟨?_, ?_, ?_⟩
      · intro x hx
        exact hmono x (List.mem_cons_of_mem _ hx)
      · exact hmono nodeId (List.mem_cons_self _ _)
      · rw [hstk]
        exact List.erase_cons_head nodeId s

/-- A `true` return of `detectCycle` witnesses a nonempty cycle, provided
the recursion stack is a path of edges ending at the current node. -/
theorem detectCycle_sound {g : Graph} (hInv : Inv g) :
    ∀ fuel, ∀ nodeId, ∀ v s : List Int,
      unvis g v < fuel → nodeId ∈ idsOf g → nodeId ∉ v → (∀ x ∈ s, x ∈ v) →
      SChain g (nodeId :: s) →
      (detectCycle g fuel nodeId (v, s)).1 = true → Cyclic g := by
  intro fuel
  induction fuel with
  | zero =>
    intro nodeId v s hf
    omega
  | succ fuel ih =>
    intro nodeId v s hf hid hnv hsv hch hres
    obtain ⟨node, hnode, hnmem, hnid⟩ := getNode_of_mem_ids hInv.nodup hid
    have hedge : ∀ t ∈ succIds node, Edge g nodeId t :=
      fun t ht => (edge_iff_succ hInv.nodup hnode t).2 ht
    have hFOLD : ∀ ts v',
        (∀ t ∈ ts, Edge g nodeId t) →
        (∀ x ∈ nodeId :: s, x ∈ v') →
        unvis g v' < fuel →
        (dfsFold (dfsStep g fuel) ts (v', nodeId :: s)).1 = true →
        Cyclic g := by
      intro ts
      induction ts with
      | nil =>
        intro v' _ _ _ h
        rw [dfsFold_nil] at h
        simp at h
      | cons t rest ihts =>
        intro v' hts hsv' hfu htrue
        rw [dfsFold_cons] at htrue
        have het : Edge g nodeId t := hts t (List.mem_cons_self _ _)
        by_cases hvis : t ∈ v'
        · by_cases hstk : t ∈ nodeId :: s
          · rcases schain_path hch t hstk nodeId rfl with rfl | hp
            · exact ⟨t, RPath.single het⟩
            · exact ⟨t, rpath_snoc hp het⟩
          · have hstep : dfsStep g fuel t (v', nodeId :: s)
                = (false, (v', nodeId :: s)) := by
              simp [dfsStep, hvis, hstk]
            simp only [hstep] at htrue
            exact ihts v' (fun x hx => hts x (List.mem_cons_of_mem _ hx))
              hsv' hfu htrue
        · have hstep : dfsStep g fuel t (v', nodeId :: s)
              = detectCycle g fuel t (v', nodeId :: s) := by
            simp [dfsStep, hvis]
          rcases hr : detectCycle g fuel t (v', nodeId :: s) with ⟨b, v2, s2⟩
          rw [hstep, hr] at htrue
          cases b with
          | true =>
            exact ih t v' (nodeId :: s) hfu (edge_target_mem hInv het) hvis hsv'
              (List.chain'_cons.2 ⟨het, hch⟩) (by rw [hr])
          | false =>
            simp only [] at htrue
            have hcall := detectCycle_basic hInv fuel t v' (nodeId :: s) hfu
              (edge_target_mem hInv het) hvis hsv' (by rw [hr])
            rw [hr] at hcall
            obtain ⟨hmono, hmark, hrest⟩ := hcall
            simp only [] at hmono hmark hrest
            subst hrest
            exact ihts v2 (fun x hx => hts x (List.mem_cons_of_mem _ hx))
              (fun x hx => hmono x (hsv' x hx))
              (lt_of_le_of_lt (unvis_mono g hmono) hfu) htrue
    have hsv0 : ∀ x ∈ nodeId :: s, x ∈ nodeId :: v := by
      intro x hx
      rcases List.mem_cons.1 hx with rfl | hx'
      · exact List.mem_cons_self _ _
      · exact List.mem_cons_of_mem _ (hsv x hx')
    have hfu0 : unvis g (nodeId :: v) < fuel := by
      have := unvis_cons_lt g hid hnv
      omega
    rcases hfold : dfsFold (dfsStep g fuel) (succIds node) (nodeId :: v, nodeId :: s)
      with ⟨b, v2, s2⟩
    cases b with
    | true =>
      exact hFOLD (succIds node) (nodeId :: v) hedge hsv0 hfu0 (by rw [hfold])
    | false =>
      have hdc : detectCycle g (fuel + 1) nodeId (v, s)
          = (false, (v2, s2.erase nodeId)) := by
        rw [detectCycle_succ_eq hnode, hfold]
      rw [hdc] at hres
      simp at hres

/-- A `false` return of `detectCycle` extends the "finished" region
(visited, off-stack) while keeping it closed under edges and cycle-free. -/
theorem detectCycle_complete {g : Graph} (hInv : Inv g) :
    ∀ fuel, ∀ nodeId, ∀ v s : List Int,
      unvis g v < fuel → nodeId ∈ idsOf g → nodeId ∉ v → (∀ x ∈ s, x ∈ v) →
      ClosedF g v s → NoCycF g v s →
      (detectCycle g fuel nodeId (v, s)).1 = false →
      ClosedF g (detectCycle g fuel nodeId (v, s)).2.1 s ∧
      NoCycF g (detectCycle g fuel nodeId (v, s)).2.1 s := by
  intro fuel
  induction fuel with
  | zero =>
    intro nodeId v s hf
    omega
  | succ fuel ih =>
    intro nodeId v s hf hid hnv hsv hclo hnc hres
    obtain ⟨node, hnode, hnmem, hnid⟩ := getNode_of_mem_ids hInv.nodup hid
    have hedge : ∀ t ∈ succIds node, Edge g nodeId t :=
      fun t ht => (edge_iff_succ hInv.nodup hnode t).2 ht
    have hclo1 : ClosedF g (nodeId :: v) (nodeId :: s) := by
      intro a ha has b hb
      have hane : a ≠ nodeId := fun h => has (h ▸ List.mem_cons_self _ _)
      have hav : a ∈ v := by
        rcases List.mem_cons.1 ha with rfl | h
        · exact absurd rfl hane
        · exact h
      have has' : a ∉ s := fun h => has (List.mem_cons_of_mem _ h)
      obtain ⟨hbv, hbs⟩ := hclo a hav has' b hb
      refine ⟨List.mem_cons_of_mem _ hbv, ?_⟩
      intro hbs'
      rcases List.mem_cons.1 hbs' with rfl | h
      · exact hnv hbv
      · exact hbs h
    have hnc1 : NoCycF g (nodeId :: v) (nodeId :: s) := by
      intro a ha has hp
      have hane : a ≠ nodeId := fun h => has (h ▸ List.mem_cons_self _ _)
      have hav : a ∈ v := by
        rcases List.mem_cons.1 ha with rfl | h
        · exact absurd rfl hane
        · exact h
      have has' : a ∉ s := fun h => has (List.mem_cons_of_mem _ h)
      exact hnc a hav has' hp
    have hFOLD : ∀ ts v',
        (∀ t ∈ ts, Edge g nodeId t) →
        (∀ x ∈ nodeId :: s, x ∈ v') →
        unvis g v' < fuel →
        ClosedF g v' (nodeId :: s) → NoCycF g v' (nodeId :: s) →
        ∀ res, dfsFold (dfsStep g fuel) ts (v', nodeId :: s) = res →
        res.1 = false →
        res.2.2 = nodeId :: s ∧ (∀ x ∈ v', x ∈ res.2.1) ∧
        (∀ t ∈ ts, t ∈ res.2.1 ∧ t ∉ nodeId :: s) ∧
        ClosedF g res.2.1 (nodeId :: s) ∧ NoCycF g res.2.1 (nodeId :: s) := by
      intro ts
      induction ts with
      | nil =>
        intro v' _ _ _ hclo' hnc' res hres' _
        rw [dfsFold_nil] at hres'
        subst hres'
        exact ⟨rfl, fun x hx => hx, by simp, hclo', hnc'⟩
      | cons t rest ihts =>
        intro v' hts hsv' hfu hclo' hnc' res hres' hresf
        rw [dfsFold_cons] at hres'
        have het : Edge g nodeId t := hts t (List.mem_cons_self _ _)
        by_cases hvis : t ∈ v'
        · by_cases hstk : t ∈ nodeId :: s
          · have hstep : dfsStep g fuel t (v', nodeId :: s)
                = (true, (v', nodeId :: s)) := by
              simp [dfsStep, hvis, hstk]
            simp only [hstep] at hres'
            subst hres'
            simp at hresf
          · have hstep : dfsStep g fuel t (v', nodeId :: s)
                = (false, (v', nodeId :: s)) := by
              simp [dfsStep, hvis, hstk]
            simp only [hstep] at hres'
            obtain ⟨h1, h2, h3, h4, h5⟩ := ihts v'
              (fun x hx => hts x (List.mem_cons_of_mem _ hx))
              hsv' hfu hclo' hnc' res hres' hresf
            refine ⟨h1, h2, ?_, h4, h5⟩
            intro t' ht'
            rcases List.mem_cons.1 ht' with rfl | ht''
            · exact ⟨h2 t' hvis, hstk⟩
            · exact h3 t' ht''
        · have hstep : dfsStep g fuel t (v', nodeId :: s)
              = detectCycle g fuel t (v', nodeId :: s) := by
            simp [dfsStep, hvis]
          rcases hr : detectCycle g fuel t (v', nodeId :: s) with ⟨b, v2, s2⟩
          rw [hstep, hr] at hres'
          cases b with
          | true =>
            simp only [] at hres'
            subst hres'
            simp at hresf
          | false =>
            simp only [] at hres'
            have hcall := detectCycle_basic hInv fuel t v' (nodeId :: s) hfu
              (edge_target_mem hInv het) hvis hsv' (by rw [hr])
            rw [hr] at hcall
            obtain ⟨hmono, hmark, hrest⟩ := hcall
            simp only [] at hmono hmark hrest
            subst hrest
            have hcomp := ih t v' (nodeId :: s) hfu
              (edge_target_mem hInv het) hvis hsv' hclo' hnc' (by rw [hr])
            rw [hr] at hcomp
            obtain ⟨hclo2, hnc2⟩ := hcomp
            simp only [] at hclo2 hnc2
            have htstk : t ∉ nodeId :: s := fun h => hvis (hsv' t h)
            obtain ⟨h1, h2, h3, h4, h5⟩ := ihts v2
              (fun x hx => hts x (List.mem_cons_of_mem _ hx))
              (fun x hx => hmono x (hsv' x hx))
              (lt_of_le_of_lt (unvis_mono g hmono) hfu)
              hclo2 hnc2 res hres' hresf
            refine ⟨h1, fun x hx => h2 x (hmono x hx), ?_, h4, h5⟩
            intro t' ht'
            rcases List.mem_cons.1 ht' with rfl | ht''
            · exact ⟨h2 t' hmark, htstk⟩
            · exact h3 t' ht''
    have hsv0 : ∀ x ∈ nodeId :: s, x ∈ nodeId :: v := by
      intro x hx
      rcases List.mem_cons.1 hx with rfl | hx'
      · exact List.mem_cons_self _ _
      · exact List.mem_cons_of_mem _ (hsv x hx')
    have hfu0 : unvis g (nodeId :: v) < fuel := by
      have := unvis_cons_lt g hid hnv
      omega
    rcases hfold : dfsFold (dfsStep g fuel) (succIds node) (nodeId :: v, nodeId :: s)
      with ⟨b, v2, s2⟩
    cases b with
    | true =>
      have hdc : detectCycle g (fuel + 1) nodeId (v, s) = (true, (v2, s2)) := by
        rw [detectCycle_succ_eq hnode, hfold]
      rw [hdc] at hres
      simp at hres
    | false =>
      have hdc : detectCycle g (fuel + 1) nodeId (v, s)
          = (false, (v2, s2.erase nodeId)) := by
        rw [detectCycle_succ_eq hnode, hfold]
      obtain ⟨hstk, hmono, hfin, hcloF, hncF⟩ := hFOLD (succIds node) (nodeId :: v)
        hedge hsv0 hfu0 hclo1 hnc1 (false, (v2, s2)) hfold rfl
      simp only [] at hstk hmono hfin hcloF hncF
      rw [hdc]
      refine ⟨?_, ?_⟩
      · intro a ha has b hb
        by_cases haid : a = nodeId
        · subst haid
          have hbsucc : b ∈ succIds node := (edge_iff_succ hInv.nodup hnode b).1 hb
          obtain ⟨hbv, hbs⟩ := hfin b hbsucc
          exact ⟨hbv, fun h => hbs (List.mem_cons_of_mem _ h)⟩
        · have has2 : a ∉ nodeId :: s := by
            intro h
            rcases List.mem_cons.1 h with h' | h'
            · exact haid h'
            · exact has h'
          obtain ⟨hbv, hbs⟩ := hcloF a ha has2 b hb
          exact ⟨hbv, fun h => hbs (List.mem_cons_of_mem _ h)⟩
      · intro a ha has hp
        by_cases haid : a = nodeId
        · subst haid
          cases hp with
          | single he =>
            have hsucc := (edge_iff_succ hInv.nodup hnode _).1 he
            exact (hfin a hsucc).2 (List.mem_cons_self _ _)
          | cons he hp' =>
            have hbsucc := (edge_iff_succ hInv.nodup hnode _).1 he
            obtain ⟨hbv, hbs⟩ := hfin _ hbsucc
            obtain ⟨hnv2, hns2⟩ := closedF_path hcloF hp' hbv hbs
            exact hns2 (List.mem_cons_self _ _)
        · have has2 : a ∉ nodeId :: s := by
            intro h
            rcases List.mem_cons.1 h with h' | h'
            · exact haid h'
            · exact has h'
          exact hncF a ha has2 hp

theorem containsCycles_eq_fold (g : Graph) :
    containsCycles g = (g.foldl (topStep g) (false, ([], []))).1 := rfl

theorem topStep_true (g : Graph) :
    ∀ ns (acc : Bool × List Int × List Int), acc.1 = true →
      List.foldl (topStep g) acc ns = acc := by
  intro ns
  induction ns with
  | nil => intro acc _; rfl
  | cons n rest ih =>
    intro acc hacc
    rw [List.foldl_cons]
    have : topStep g acc n = acc := by simp [topStep, hacc]
    rw [this]
    exact ih acc hacc

theorem containsCycles_sound {g : Graph} (hInv : Inv g)
    (h : containsCycles g = true) : Cyclic g := by
  have main : ∀ ns : List Node, (∀ n ∈ ns, n ∈ g) → ∀ v : List Int,
      (List.foldl (topStep g) (false, (v, [])) ns).1 = true → Cyclic g := by
    intro ns
    induction ns with
    | nil =>
      intro _ v h'
      simp at h'
    | cons n rest ih =>
      intro hsub v h'
      rw [List.foldl_cons] at h'
      by_cases hvis : n.id ∈ v
      · have hstep : topStep g (false, (v, [])) n = (false, (v, [])) := by
          simp [topStep, hvis]
        rw [hstep] at h'
        exact ih (fun x hx => hsub x (List.mem_cons_of_mem _ hx)) v h'
      · have hstep : topStep g (false, (v, [])) n
            = detectCycle g (g.length + 1) n.id (v, []) := by
          simp [topStep, hvis]
        rw [hstep] at h'
        rcases hr : detectCycle g (g.length + 1) n.id (v, []) with ⟨b, v2, s2⟩
        rw [hr] at h'
        cases b with
        | true =>
          exact detectCycle_sound hInv (g.length + 1) n.id v []
            (Nat.lt_succ_of_le (unvis_le g v))
            (List.mem_map_of_mem _ (hsub n (List.mem_cons_self _ _)))
            hvis (by simp) (List.chain'_singleton _) (by rw [hr])
        | false =>
          have hcall := detectCycle_basic hInv (g.length + 1) n.id v []
            (Nat.lt_succ_of_le (unvis_le g v))
            (List.mem_map_of_mem _ (hsub n (List.mem_cons_self _ _)))
            hvis (by simp) (by rw [hr])
          rw [hr] at hcall
          obtain ⟨_, _, hrest⟩ := hcall
          simp only [] at hrest
          subst hrest
          exact ih (fun x hx => hsub x (List.mem_cons_of_mem _ hx)) v2 h'
  rw [containsCycles_eq_fold] at h
  exact main g (fun _ hx => hx) [] h

theorem containsCycles_complete {g : Graph} (hInv : Inv g)
    (h : containsCycles g = false) : Acyclic g := by
  have main : ∀ ns : List Node, (∀ n ∈ ns, n ∈ g) → ∀ v : List Int,
      ClosedF g v [] → NoCycF g v [] →
      ∀ res, List.foldl (topStep g) (false, (v, [])) ns = res → res.1 = false →
      (∀ n ∈ ns, n.id ∈ res.2.1) ∧ (∀ x ∈ v, x ∈ res.2.1) ∧
      NoCycF g res.2.1 [] ∧ ClosedF g res.2.1 [] ∧ res.2.2 = [] := by
    intro ns
    induction ns with
    | nil =>
      intro _ v hclo hnc res hres _
      subst hres
      exact ⟨by simp, fun x hx => hx, hnc, hclo, rfl⟩
    | cons n rest ih =>
      intro hsub v hclo hnc res hres hresf
      rw [List.foldl_cons] at hres
      by_cases hvis : n.id ∈ v
      · have hstep : topStep g (false, (v, [])) n = (false, (v, [])) := by
          simp [topStep, hvis]
        rw [hstep] at hres
        obtain ⟨h1, h2, h3, h4, h5⟩ := ih
          (fun x hx => hsub x (List.mem_cons_of_mem _ hx)) v hclo hnc res hres hresf
        refine ⟨?_, h2, h3, h4, h5⟩
        intro n' hn'
        rcases List.mem_cons.1 hn' with rfl | hn''
        · exact h2 n'.id hvis
        · exact h1 n' hn''
      · have hstep : topStep g (false, (v, [])) n
            = detectCycle g (g.length + 1) n.id (v, []) := by
          simp [topStep, hvis]
        rw [hstep] at hres
        rcases hr : detectCycle g (g.length + 1) n.id (v, []) with ⟨b, v2, s2⟩
        rw [hr] at hres
        cases b with
        | true =>
          rw [topStep_true g rest (true, (v2, s2)) rfl] at hres
          subst hres
          simp at hresf
        | false =>
          have hcall := detectCycle_basic hInv (g.length + 1) n.id v []
            (Nat.lt_succ_of_le (unvis_le g v))
            (List.mem_map_of_mem _ (hsub n (List.mem_cons_self _ _)))
            hvis (by simp) (by rw [hr])
          rw [hr] at hcall
          obtain ⟨hmono, hmark, hrest⟩ := hcall
          simp only [] at hmono hmark hrest
          subst hrest
          have hcomp := detectCycle_complete hInv (g.length + 1) n.id v []
            (Nat.lt_succ_of_le (unvis_le g v))
            (List.mem_map_of_mem _ (hsub n (List.mem_cons_self _ _)))
            hvis (by simp) hclo hnc (by rw [hr])
          rw [hr] at hcomp
          obtain ⟨hclo2, hnc2⟩ := hcomp
          simp only [] at hclo2 hnc2
          obtain ⟨h1, h2, h3, h4, h5⟩ := ih
            (fun x hx => hsub x (List.mem_cons_of_mem _ hx)) v2 hclo2 hnc2 res hres hresf
          refine ⟨?_, fun x hx => h2 x (hmono x hx), h3, h4, h5⟩
          intro n' hn'
          rcases List.mem_cons.1 hn' with rfl | hn''
          · exact h2 n'.id hmark
          · exact h1 n' hn''
  rw [containsCycles_eq_fold] at h
  obtain ⟨hall, _, hnc, _, _⟩ := main g (fun _ hx => hx) []
    (fun a ha => absurd ha (List.not_mem_nil a))
    (fun a ha => absurd ha (List.not_mem_nil a))
    (List.foldl (topStep g) (false, ([], [])) g) rfl h
  intro a hp
  have hmem : a ∈ idsOf g := by
    cases hp with
    | single e => exact edge_source_mem e
    | cons e _ => exact edge_source_mem e
  obtain ⟨n, hn, rfl⟩ := List.mem_map.1 hmem
  exact hnc n.id (hall n hn) (List.not_mem_nil _) hp

/-- `containsCycles` decides exactly the existence of a nonempty cycle in
the edge relation, on graphs satisfying the integrity invariant. -/
theorem containsCycles_iff {g : Graph} (hInv : Inv g) :
    containsCycles g = true ↔ Cyclic g := by
  constructor
  · exact containsCycles_sound hInv
  · intro hcyc
    cases hcc : containsCycles g with
    | true => rfl
    | false =>
      obtain ⟨a, hp⟩ := hcyc
      exact absurd hp (containsCycles_complete hInv hcc a)

theorem hasUnprocessedDependencies_eq_true {n : Node} {processed : List Int} :
    hasUnprocessedDependencies n processed = true ↔
      ∃ i sId o, 0 ≤ i ∧ i < n.inputCount ∧ n.inputs i = some (sId, o) ∧
        sId ∉ processed := by
  unfold hasUnprocessedDependencies
  rw [List.any_eq_true]
  constructor
  · rintro ⟨k, hk, hp⟩
    rw [List.mem_range] at hk
    cases hin : n.inputs ((k : Int)) with
    | none => rw [hin] at hp; cases hp
    | some p =>
      rw [hin] at hp
      rcases p with ⟨srcId, o'⟩
      simp only [decide_eq_true_eq] at hp
      exact ⟨(k : Int), srcId, o', by omega, by omega, hin, hp⟩
  · rintro ⟨i, sId, o, h0, hlt, hin, hnp⟩
    refine ⟨i.toNat, List.mem_range.2 (by omega), ?_⟩
    rw [show ((i.toNat : Nat) : Int) = i by omega, hin]
    simpa using hnp

theorem hasUnprocessedDependencies_eq_false {n : Node} {processed : List Int} :
    hasUnprocessedDependencies n processed = false ↔
      ∀ i sId o, 0 ≤ i → i < n.inputCount → n.inputs i = some (sId, o) →
        sId ∈ processed := by
  rw [← Bool.not_eq_true, hasUnprocessedDependencies_eq_true]
  push_neg
  tauto

theorem passRec_found_true : ∀ (nodes result : List Node) (processed : List Int),
    (passRec nodes result processed true).2.2 = true := by
  intro nodes
  induction nodes with
  | nil => intro result processed; rfl
  | cons n rest ih =>
    intro result processed
    simp only [passRec]
    by_cases h1 : n.id ∈ processed
    · simp only [h1, if_true]
      exact ih result processed
    · by_cases h2 : hasUnprocessedDependencies n processed
      · simp only [h1, h2, if_false, if_true]
        exact ih result processed
      · simp only [h1, h2, if_false]
        exact ih (result ++ [n]) (n.id :: processed)

/-- A pass that sets no `foundNode` flag appended nothing, changed no
markers, and saw every unmarked node report an unprocessed dependency. -/
theorem passRec_stall : ∀ (nodes result : List Node) (processed : List Int)
    {result' : List Node} {processed' : List Int},
    passRec nodes result processed false = (result', processed', false) →
    result' = result ∧ processed' = processed ∧
    ∀ n ∈ nodes, n.id ∉ processed →
      hasUnprocessedDependencies n processed = true := by
  intro nodes
  induction nodes with
  | nil =>
    intro result processed result' processed' h
    simp only [passRec, Prod.mk.injEq] at h
    exact ⟨h.1.symm, h.2.1.symm, by simp⟩
  | cons n rest ih =>
    intro result processed result' processed' h
    simp only [passRec] at h
    by_cases h1 : n.id ∈ processed
    · simp only [h1, if_true] at h
      obtain ⟨e1, e2, e3⟩ := ih result processed h
      refine ⟨e1, e2, ?_⟩
      intro n' hn' hnp
      rcases List.mem_cons.1 hn' with rfl | hn''
      · exact absurd h1 hnp
      · exact e3 n' hn'' hnp
    · by_cases h2 : hasUnprocessedDependencies n processed
      · simp only [h1, h2, if_false, if_true] at h
        obtain ⟨e1, e2, e3⟩ := ih result processed h
        refine ⟨e1, e2, ?_⟩
        intro n' hn' hnp
        rcases List.mem_cons.1 hn' with rfl | hn''
        · exact h2
        · exact e3 n' hn'' hnp
      · simp [h1, h2] at h
        have := passRec_found_true rest (result ++ [n]) (n.id :: processed)
        rw [h] at this
        cases this

/-- Decomposition of a split of `result ++ [n]`. -/
theorem append_singleton_split {result l1 l2 : List Node} {m n : Node}
    (h : result ++ [n] = l1 ++ m :: l2) :
    (∃ l2', result = l1 ++ m :: l2' ∧ l2 = l2' ++ [n]) ∨
    (l1 = result ∧ m = n ∧ l2 = []) := by
  rcases List.append_eq_append_iff.1 h with ⟨a', ha1, ha2⟩ | ⟨c', hc1, hc2⟩
  · cases a' with
    | nil =>
      simp at ha2
      right
      simp [ha1, ha2.1.symm, ha2.2.symm]
    | cons x xs =>
      exfalso
      rw [List.cons_append] at ha2
      injection ha2 with h3 h4
      exact absurd h4.symm (by simp)
  · cases c' with
    | nil =>
      simp at hc1 hc2
      right
      exact ⟨hc1.symm, hc2.1, hc2.2⟩
    | cons x xs =>
      left
      have hx : m = x ∧ l2 = xs ++ [n] := by
        have := hc2
        simp only [List.cons_append, List.cons.injEq] at this
        exact ⟨this.1, this.2⟩
      refine ⟨xs, ?_, hx.2⟩
      rw [hc1, hx.1]

theorem depsDone_nil : DepsDone [] := by
  intro l1 n l2 h
  exact absurd h (by simp)

/-- The pass body preserves the scheduler loop invariant: markers are
exactly the ids of the result, the result has distinct ids, draws from the
graph, and respects dependencies. -/
theorem passRec_invariant (g : Graph) :
    ∀ (nodes result : List Node) (processed : List Int) (found : Bool),
    (∀ n ∈ nodes, n ∈ g) →
    (∀ x, x ∈ processed ↔ x ∈ idsOf result) →
    (idsOf result).Nodup →
    (∀ n ∈ result, n ∈ g) →
    DepsDone result →
    (∀ x, x ∈ (passRec nodes result processed found).2.1 ↔
        x ∈ idsOf (passRec nodes result processed found).1) ∧
    (idsOf (passRec nodes result processed found).1).Nodup ∧
    (∀ n ∈ (passRec nodes result processed found).1, n ∈ g) ∧
    DepsDone (passRec nodes result processed found).1 := by
  intro nodes
  induction nodes with
  | nil =>
    intro result processed found _ hset hnd hmem hdd
    exact ⟨hset, hnd, hmem, hdd⟩
  | cons n rest ih =>
    intro result processed found hsub hset hnd hmem hdd
    simp only [passRec]
    by_cases h1 : n.id ∈ processed
    · simp only [h1, if_true]
      exact ih result processed found
        (fun x hx => hsub x (List.mem_cons_of_mem _ hx)) hset hnd hmem hdd
    · by_cases h2 : hasUnprocessedDependencies n processed
      · simp only [h1, h2, if_false, if_true]
        exact ih result processed found
          (fun x hx => hsub x (List.mem_cons_of_mem _ hx)) hset hnd hmem hdd
      · simp only [h1, h2, if_false]
        have hids : idsOf (result ++ [n]) = idsOf result ++ [n.id] := by
          simp [idsOf]
        apply ih (result ++ [n]) (n.id :: processed) true
          (fun x hx => hsub x (List.mem_cons_of_mem _ hx))
        · intro x
          rw [hids]
          simp only [List.mem_cons, List.mem_append, List.mem_singleton]
          rw [hset x]
          tauto
        · rw [hids, ← List.concat_eq_append]
          refine List.Nodup.concat ?_ hnd
          intro hmem'
          exact h1 ((hset n.id).2 hmem')
        · intro m hm
          rcases List.mem_append.1 hm with hm' | hm'
          · exact hmem m hm'
          · rw [List.mem_singleton.1 hm']
            exact hsub n (List.mem_cons_self _ _)
        · intro l1 m l2 hsplit i sId o h0 hlt hin
          rcases append_singleton_split hsplit with ⟨l2', hr, _⟩ | ⟨hl1, hmn, _⟩
          · exact hdd l1 m l2' hr i sId o h0 hlt hin
          · subst hl1
            subst hmn
            have hdep := hasUnprocessedDependencies_eq_false.1
              (Bool.of_not_eq_true h2) i sId o h0 hlt hin
            exact (hset sId).1 hdep

theorem rpath_mono {R R' : Int → Int → Prop} (h : ∀ x y, R x y → R' x y)
    {a b : Int} (hp : RPath R a b) : RPath R' a b := by
  induction hp with
  | single he => exact RPath.single (h _ _ he)
  | cons he _ ih => exact RPath.cons (h _ _ he) ih

theorem not_nodup_split {α : Type} {l : List α} (h : ¬ l.Nodup) :
    ∃ x l1 l2 l3, l = l1 ++ x :: (l2 ++ x :: l3) := by
  induction l with
  | nil => exact absurd List.nodup_nil h
  | cons a l' ih =>
    by_cases ha : a ∈ l'
    · obtain ⟨s, t, rfl⟩ := List.append_of_mem ha
      exact ⟨a, [], s, t, by simp⟩
    · have h' : ¬ l'.Nodup := fun hnd => h (List.nodup_cons.2 ⟨ha, hnd⟩)
      obtain ⟨x, l1, l2, l3, rfl⟩ := ih h'
      exact ⟨x, a :: l1, l2, l3, by simp⟩

/-- Pigeonhole: in a finite set in which every element has a predecessor
inside the set, some element lies on a cycle staying inside the set. -/
theorem exists_cycle_of_preds {R : Int → Int → Prop} {U : List Int}
    (hne : U ≠ []) (hpred : ∀ u ∈ U, ∃ p ∈ U, R p u) :
    ∃ a ∈ U, RPath (fun x y => R x y ∧ x ∈ U ∧ y ∈ U) a a := by
  have hchain : ∀ k, ∃ l : List Int, l.length = k + 1 ∧ (∀ x ∈ l, x ∈ U) ∧
      List.Chain' (fun x y => R x y ∧ x ∈ U ∧ y ∈ U) l := by
    intro k
    induction k with
    | zero =>
      obtain ⟨u, hu⟩ := List.exists_mem_of_ne_nil U hne
      exact ⟨[u], rfl, by simpa using hu, List.chain'_singleton u⟩
    | succ k ihk =>
      obtain ⟨l, hlen, hmem, hch⟩ := ihk
      cases l with
      | nil => simp at hlen
      | cons h0 l' =>
        obtain ⟨p, hp, hR⟩ := hpred h0 (hmem h0 (List.mem_cons_self _ _))
        refine ⟨p :: h0 :: l', by simp at hlen ⊢; omega, ?_, ?_⟩
        · intro x hx
          rcases List.mem_cons.1 hx with rfl | hx'
          · exact hp
          · exact hmem x hx'
        · exact List.chain'_cons.2
            ⟨⟨hR, hp, hmem h0 (List.mem_cons_self _ _)⟩, hch⟩
  obtain ⟨l, hlen, hmem, hch⟩ := hchain U.length
  have hnn : ¬ l.Nodup := by
    intro hnd
    have hsp := List.subperm_of_subset hnd (fun x hx => hmem x hx)
    have := hsp.length_le
    omega
  obtain ⟨x, l1, l2, l3, rfl⟩ := not_nodup_split hnn
  have hsuf : List.Chain' (fun x y => R x y ∧ x ∈ U ∧ y ∈ U)
      (x :: (l2 ++ x :: l3)) := by
    apply List.Chain'.suffix hch
    exact ⟨l1, rfl⟩
  have hpath : ∀ (m : List Int) (a b : Int) (rest : List Int),
      List.Chain' (fun x y => R x y ∧ x ∈ U ∧ y ∈ U) (a :: m ++ b :: rest) →
      RPath (fun x y => R x y ∧ x ∈ U ∧ y ∈ U) a b := by
    intro m
    induction m with
    | nil =>
      intro a b rest hc
      exact RPath.single (List.chain'_cons.1 hc).1
    | cons z m' ihm =>
      intro a b rest hc
      rw [List.cons_append] at hc
      have hc' := List.chain'_cons.1 hc
      exact RPath.cons hc'.1 (ihm z b rest hc'.2)
  have hx : x ∈ U :=
    hmem x (List.mem_append_right l1 (List.mem_cons_self _ _))
  exact ⟨x, hx, hpath l2 x x l3 hsuf⟩

/-- In a stalled state reached with fewer placed nodes than graph nodes,
some unmarked node exists, and the unmarked nodes carry a cycle. -/
theorem stall_cycle {g : Graph} (hInv : Inv g) {processed : List Int}
    (hstall : ∀ n ∈ g, n.id ∉ processed →
      hasUnprocessedDependencies n processed = true)
    {a0 : Int} (ha0 : a0 ∈ idsOf g) (ha0p : a0 ∉ processed) :
    ∃ a, a ∈ idsOf g ∧ a ∉ processed ∧
      RPath (fun x y => Edge g x y ∧ x ∉ processed ∧ y ∉ processed) a a := by
  set U := (idsOf g).filter (fun x => decide (x ∉ processed)) with hU
  have hmemU : ∀ x, x ∈ U ↔ x ∈ idsOf g ∧ x ∉ processed := by
    intro x
    rw [hU]
    simp [List.mem_filter]
  have hne : U ≠ [] :=
    List.ne_nil_of_mem ((hmemU a0).2 ⟨ha0, ha0p⟩)
  have hpred : ∀ u ∈ U, ∃ p ∈ U, Edge g p u := by
    intro u hu
    obtain ⟨humem, hup⟩ := (hmemU u).1 hu
    obtain ⟨n, hn, rfl⟩ := List.mem_map.1 humem
    obtain ⟨i, sId, o, h0, hlt, hin, hnp⟩ :=
      hasUnprocessedDependencies_eq_true.1 (hstall n hn hup)
    obtain ⟨s, hs, hsid, hconn, ho0, holt, _, _⟩ :=
      hInv.inEdge n hn i sId o hin
    refine ⟨sId, (hmemU sId).2 ⟨hsid ▸ List.mem_map_of_mem _ hs, hnp⟩, ?_⟩
    exact ⟨s, hs, hsid, mem_succIds.2 ⟨o, i, ho0, holt, hconn⟩⟩
  obtain ⟨a, haU, hp⟩ := exists_cycle_of_preds hne hpred
  obtain ⟨hamem, hap⟩ := (hmemU a).1 haU
  refine ⟨a, hamem, hap, ?_⟩
  apply rpath_mono ?_ hp
  intro x y hxy
  exact ⟨hxy.1, ((hmemU x).1 hxy.2.1).2, ((hmemU y).1 hxy.2.2).2⟩

/-- Loop invariant of `getProcessingOrder`'s outer loop, plus the
completeness consequence under acyclicity. -/
theorem orderLoop_spec {g : Graph} (hInv : Inv g) :
    ∀ (result : List Node) (processed : List Int),
    (∀ x, x ∈ processed ↔ x ∈ idsOf result) →
    (idsOf result).Nodup →
    (∀ n ∈ result, n ∈ g) →
    DepsDone result →
    (idsOf (orderLoop g result processed)).Nodup ∧
    (∀ n ∈ orderLoop g result processed, n ∈ g) ∧
    DepsDone (orderLoop g result processed) ∧
    (Acyclic g → (orderLoop g result processed).length = g.length) := by
  have main : ∀ (k : Nat) (result : List Node) (processed : List Int),
      g.length - result.length ≤ k →
      (∀ x, x ∈ processed ↔ x ∈ idsOf result) →
      (idsOf result).Nodup →
      (∀ n ∈ result, n ∈ g) →
      DepsDone result →
      (idsOf (orderLoop g result processed)).Nodup ∧
      (∀ n ∈ orderLoop g result processed, n ∈ g) ∧
      DepsDone (orderLoop g result processed) ∧
      (Acyclic g → (orderLoop g result processed).length = g.length) := by
    intro k
    induction k with
    | zero =>
      intro result processed hk hset hnd hmem hdd
      have hnlt : ¬ result.length < g.length := by omega
      rw [orderLoop, dif_neg hnlt]
      refine ⟨hnd, hmem, hdd, fun _ => ?_⟩
      have hsp := List.subperm_of_subset (hnd.of_map) (fun n hn => hmem n hn)
      have := hsp.length_le
      omega
    | succ k ihk =>
      intro result processed hk hset hnd hmem hdd
      by_cases hlt : result.length < g.length
      · rcases hpass : onePass g result processed with ⟨result', processed', found⟩
        have hinv' := passRec_invariant g g result processed false
          (fun _ hx => hx) hset hnd hmem hdd
        rw [show passRec g result processed false = onePass g result processed
          from rfl, hpass] at hinv'
        obtain ⟨hset', hnd', hmem', hdd'⟩ := hinv'
        simp only [] at hset' hnd' hmem' hdd'
        cases found with
        | true =>
          have hloop : orderLoop g result processed = orderLoop g result' processed' := by
            rw [orderLoop, dif_pos hlt]
            simp [hpass]
          have hgrow := onePass_found_length g result processed (by rw [hpass])
          rw [hpass] at hgrow
          simp only [] at hgrow
          rw [hloop]
          exact ihk result' processed' (by omega) hset' hnd' hmem' hdd'
        | false =>
          obtain ⟨he1, he2, hstall⟩ := passRec_stall g result processed hpass
          have hloop : orderLoop g result processed = result := by
            rw [orderLoop, dif_pos hlt]
            simp [hpass, he1]
          rw [hloop]
          refine ⟨hnd, hmem, hdd, ?_⟩
          intro hacyc
          exfalso
          have hex : ∃ a, a ∈ idsOf g ∧ a ∉ processed := by
            by_contra hall
            push_neg at hall
            have hsubids : idsOf g ⊆ idsOf result := by
              intro x hx
              exact (hset x).1 (hall x hx)
            have hsp := List.subperm_of_subset hInv.nodup hsubids
            have h1 := hsp.length_le
            have h2 : (idsOf g).length = g.length := by simp [idsOf]
            have h3 : (idsOf result).length = result.length := by simp [idsOf]
            omega
          obtain ⟨a0, ha0, ha0p⟩ := hex
          obtain ⟨a, _, _, hp⟩ := stall_cycle hInv hstall ha0 ha0p
          exact hacyc a (rpath_mono (fun x y hxy => hxy.1) hp)
      · rw [orderLoop, dif_neg hlt]
        refine ⟨hnd, hmem, hdd, fun _ => ?_⟩
        have hsp := List.subperm_of_subset (hnd.of_map) (fun n hn => hmem n hn)
        have := hsp.length_le
        omega
  intro result processed hset hnd hmem hdd
  exact main (g.length - result.length) result processed le_rfl hset hnd hmem hdd

/-- The order computed on an acyclic well-formed graph is a permutation of
the node collection, and a dependency-respecting one. -/
theorem order_perm {g : Graph} (hInv : Inv g) (hacyc : Acyclic g) :
    (getProcessingOrder g).Perm g ∧ DepsDone (getProcessingOrder g) := by
  have hgo : getProcessingOrder g = orderLoop g [] [] := rfl
  obtain ⟨hnd, hmem, hdd, hlen⟩ := orderLoop_spec hInv [] []
    (by simp [idsOf]) (by simp [idsOf]) (by simp) depsDone_nil
  rw [hgo]
  have hnodup : (orderLoop g [] []).Nodup := hnd.of_map
  have hsp := List.subperm_of_subset hnodup (fun n hn => hmem n hn)
  exact ⟨hsp.perm_of_length_le (le_of_eq (hlen hacyc).symm), hdd⟩

/-- C2 (cycle rollback atomicity).  On an acyclic well-formed graph, a
`connectNodes` call whose new edge would close a cycle (the connected state
`g.map (connectUpd a o b i)` — exactly what `connectOutput` produces — is
cyclic) returns false and leaves the graph state identical to before the
call; and after every `connectNodes` call, whatever its arguments, the edge
relation is still acyclic. -/
theorem connectNodes_cycle_rollback {g : Graph} (hInv : Inv g)
    (hacyc : Acyclic g) :
    (∀ (a o b i : Int) (s t : Node),
      getNode g a = some s → getNode g b = some t →
      0 ≤ o → o < s.outputCount → 0 ≤ i → i < t.inputCount →
      t.inputs i = none →
      Cyclic (g.map (connectUpd a o b i)) →
      connectNodes g a o b i = (false, g)) ∧
    (∀ a o b i : Int, Acyclic (connectNodes g a o b i).2) := by
  constructor
  · intro a o b i s t hgs hgt ho0 holt hi0 hilt hocc hcyc
    rw [connectNodes_checks_pass hInv hgs hgt ⟨ho0, holt⟩ ⟨hi0, hilt⟩ hocc]
    rw [if_pos ((containsCycles_iff
      (hInv.connect hgs hgt ⟨ho0, holt⟩ ⟨hi0, hilt⟩ hocc)).2 hcyc)]
  · intro a o b i
    cases hgs : getNode g a with
    | none => rw [connectNodes_src_missing hgs]; exact hacyc
    | some s =>
      cases hgt : getNode g b with
      | none => rw [connectNodes_tgt_missing hgt]; exact hacyc
      | some t =>
        by_cases hr : o < 0 ∨ o ≥ s.outputCount ∨ i < 0 ∨ i ≥ t.inputCount
        · rw [connectNodes_bad_range hgs hgt hr]; exact hacyc
        · by_cases hso : (t.inputs i).isSome
          · rw [connectNodes_occupied hgs hgt hso]; exact hacyc
          · have hocc := Option.not_isSome_iff_eq_none.1 hso
            push_neg at hr
            obtain ⟨h1, h2, h3, h4⟩ := hr
            rw [connectNodes_checks_pass hInv hgs hgt ⟨by omega, by omega⟩
              ⟨by omega, by omega⟩ hocc]
            by_cases hcc : containsCycles (g.map (connectUpd a o b i)) = true
            · rw [if_pos hcc]; exact hacyc
            · rw [if_neg hcc]
              exact containsCycles_complete
                (hInv.connect hgs hgt ⟨by omega, by omega⟩ ⟨by omega, by omega⟩ hocc)
                (Bool.of_not_eq_true hcc)

/-- C8 (`validateGraph` characterization).  On a well-formed graph,
`validateGraph` returns true iff the edge relation is acyclic and every
in-range input port of every node has a recorded source. -/
theorem validateGraph_iff {g : Graph} (hInv : Inv g) :
    validateGraph g = true ↔
      (Acyclic g ∧ ∀ n ∈ g, ∀ i : Int, 0 ≤ i → i < n.inputCount →
        (n.inputs i).isSome = true) := by
  unfold validateGraph
  by_cases hcc : containsCycles g = true
  · rw [if_pos hcc]
    simp only [Bool.false_eq_true, false_iff]
    rintro ⟨hacyc, _⟩
    obtain ⟨a, hp⟩ := (containsCycles_iff hInv).1 hcc
    exact hacyc a hp
  · have hccf := Bool.of_not_eq_true hcc
    rw [if_neg hcc, List.all_eq_true]
    constructor
    · intro hall
      refine ⟨containsCycles_complete hInv hccf, ?_⟩
      intro n hn i h0 hlt
      have h1 := hall n hn
      rw [List.all_eq_true] at h1
      have h2 := h1 i.toNat (List.mem_range.2 (by omega))
      rwa [show ((i.toNat : Nat) : Int) = i by omega] at h2
    · rintro ⟨_, hin⟩
      intro n hn
      rw [List.all_eq_true]
      intro k hk
      rw [List.mem_range] at hk
      exact hin n hn (k : Int) (by omega) (by omega)

/-- C3 (topological ordering).  On an acyclic well-formed graph, for every
edge `a → b` the id `a` occurs strictly before the id `b` in the sequence
returned by `getProcessingOrder`. -/
theorem getProcessingOrder_topological {g : Graph} (hInv : Inv g)
    (hacyc : Acyclic g) {a b : Int} (he : Edge g a b) :
    ∃ p1 p2 p3, idsOf (getProcessingOrder g) = p1 ++ a :: (p2 ++ b :: p3) := by
  obtain ⟨s, hs, rfl, hsucc⟩ := he
  obtain ⟨o, i, ho0, holt, hmm⟩ := mem_succIds.1 hsucc
  obtain ⟨t, ht, htid, hconn⟩ := hInv.outEdge s hs o b i hmm
  obtain ⟨s', hs', hsid', _, _, _, hi0, hilt⟩ := hInv.inEdge t ht i s.id o hconn
  obtain ⟨hperm, hdd⟩ := order_perm hInv hacyc
  have htorder : t ∈ getProcessingOrder g := hperm.mem_iff.2 ht
  obtain ⟨l1, l2, hsplit⟩ := List.append_of_mem htorder
  have hain : s.id ∈ idsOf l1 := hdd l1 t l2 hsplit i s.id o hi0 hilt hconn
  obtain ⟨m, hm, hmid⟩ := List.mem_map.1 hain
  obtain ⟨l1a, l1b, hsplit1⟩ := List.append_of_mem hm
  refine ⟨idsOf l1a, idsOf l1b, idsOf l2, ?_⟩
  rw [hsplit, hsplit1, ← htid, ← hmid]
  simp [idsOf]

/-- C9 (implicit: complete scheduling).  On an acyclic well-formed graph,
`getProcessingOrder` returns a permutation of the node collection: every
node — including one with unconnected input ports, which
`hasUnprocessedDependencies` treats as having no dependency — appears in
the order exactly once. -/
theorem getProcessingOrder_every_node_once {g : Graph} (hInv : Inv g)
    (hacyc : Acyclic g) :
    (getProcessingOrder g).Perm g ∧
    ∀ n ∈ g, (idsOf (getProcessingOrder g)).count n.id = 1 := by
  obtain ⟨hperm, _⟩ := order_perm hInv hacyc
  refine ⟨hperm, ?_⟩
  intro n hn
  have hmm : n.id ∈ idsOf (getProcessingOrder g) :=
    List.mem_map_of_mem _ (hperm.mem_iff.2 hn)
  have hnd : (idsOf (getProcessingOrder g)).Nodup := by
    have hp : (idsOf (getProcessingOrder g)).Perm (idsOf g) := hperm.map _
    exact hp.nodup_iff.2 hInv.nodup
  exact List.count_eq_one_of_mem hnd hmm

/-- C7 (scheduler stall behavior).  If a full pass appends no node while
unmarked nodes remain, then the unmarked remainder carries a cycle (or has
unconnected required inputs — the left disjunct in fact always holds), and
the loop returns the partial order computed so far. -/
theorem getProcessingOrder_stall {g : Graph} (hInv : Inv g)
    {result result' : List Node} {processed processed' : List Int}
    (hpass : onePass g result processed = (result', processed', false))
    (hrem : ∃ n ∈ g, n.id ∉ processed) :
    result' = result ∧ orderLoop g result processed = result ∧
    ((∃ a, a ∈ idsOf g ∧ a ∉ processed ∧
        RPath (fun x y => Edge g x y ∧ x ∉ processed ∧ y ∉ processed) a a) ∨
      (∃ n ∈ g, n.id ∉ processed ∧
        ∃ i, 0 ≤ i ∧ i < n.inputCount ∧ n.inputs i = none)) := by
  obtain ⟨he1, he2, hstall⟩ := passRec_stall g result processed hpass
  refine ⟨he1, ?_, ?_⟩
  · by_cases hlt : result.length < g.length
    · rw [orderLoop, dif_pos hlt]
      simp [hpass, he1]
    · rw [orderLoop, dif_neg hlt]
  · obtain ⟨n0, hn0, hn0p⟩ := hrem
    obtain ⟨a, hamem, hap, hp⟩ := stall_cycle hInv hstall
      (List.mem_map_of_mem _ hn0) hn0p
    exact Or.inl ⟨a, hamem, hap, hp⟩

theorem mem_ports {c o : Int} :
    o ∈ (List.range c.toNat).map (fun k : Nat => (k : Int)) ↔ 0 ≤ o ∧ o < c := by
  simp only [List.mem_map, List.mem_range]
  constructor
  · rintro ⟨k, hk, rfl⟩
    omega
  · rintro ⟨h0, hlt⟩
    exact ⟨o.toNat, by omega, by omega⟩

/-- Draining one output port: folding the node-level disconnect over a
snapshot of the port's connection list empties the live list, preserves the
invariant, and never grows any output list of the node. -/
theorem removeOut_port {N o : Int} :
    ∀ (conns : List (Int × Int)) (g : Graph) (node : Node),
    Inv g → getNode g N = some node → node.outputs o = conns →
    Inv (conns.foldl (fun gg p => (disconnectOutput gg N o p.1 p.2).2) g) ∧
    ∃ node', getNode (conns.foldl
        (fun gg p => (disconnectOutput gg N o p.1 p.2).2) g) N = some node' ∧
      node'.outputs o = [] ∧
      node'.id = node.id ∧ node'.inputCount = node.inputCount ∧
      node'.outputCount = node.outputCount ∧
      (∀ o'', node'.outputs o'' ⊆ node.outputs o'') := by
  intro conns
  induction conns with
  | nil =>
    intro g node hInv hnode hlive
    exact ⟨hInv, node, hnode, hlive, rfl, rfl, rfl, fun _ => List.Subset.refl _⟩
  | cons p rest ih =>
    intro g node hInv hnode hlive
    rcases p with ⟨tId, i⟩
    have hmem : (tId, i) ∈ node.outputs o := by
      rw [hlive]
      exact List.mem_cons_self _ _
    obtain ⟨t, ht, htid, hconn⟩ :=
      hInv.outEdge node (getNode_mem hnode) o tId i hmem
    have hgt : getNode g tId = some t := htid ▸ getNode_of_mem hInv.nodup ht
    have hsucc := disconnectOutput_success hnode hgt hmem
    rw [List.foldl_cons]
    have hstep : (disconnectOutput g N o tId i).2
        = g.map (disconnectUpd N o tId i) := by rw [hsucc]
    rw [hstep]
    have hInv1 : Inv (g.map (disconnectUpd N o tId i)) :=
      hInv.disconnect hnode hgt hmem
    have hnode1 : getNode (g.map (disconnectUpd N o tId i)) N
        = some (disconnectUpd N o tId i node) := by
      rw [getNode_map_of_id _ (disconnectUpd_id N o tId i), hnode, Option.map_some']
    have hlive1 : (disconnectUpd N o tId i node).outputs o = rest := by
      rw [disconnectUpd_outputs, if_pos ⟨getNode_id hnode, rfl⟩, hlive]
      exact List.erase_cons_head _ _
    obtain ⟨hInv', node', hnode', hempty, hid, hic, hoc, hsub⟩ :=
      ih (g.map (disconnectUpd N o tId i)) (disconnectUpd N o tId i node)
        hInv1 hnode1 hlive1
    refine ⟨hInv', node', hnode', hempty, by simpa using hid, by simpa using hic,
      by simpa using hoc, ?_⟩
    intro o'' x hx
    have hx1 := hsub o'' hx
    rw [disconnectUpd_outputs] at hx1
    by_cases hc : node.id = N ∧ o'' = o
    · rw [if_pos hc] at hx1
      exact List.mem_of_mem_erase hx1
    · rwa [if_neg hc] at hx1

/-- The output-side loop of `removeNode` empties every listed output port
of the node while preserving the invariant. -/
theorem removeOutLoop_spec {N : Int} :
    ∀ (ports : List Int) (g : Graph) (node : Node),
    Inv g → getNode g N = some node →
    Inv (removeOutLoop g N ports) ∧
    ∃ node', getNode (removeOutLoop g N ports) N = some node' ∧
      node'.id = node.id ∧ node'.inputCount = node.inputCount ∧
      node'.outputCount = node.outputCount ∧
      (∀ o, node'.outputs o ⊆ node.outputs o) ∧
      (∀ o ∈ ports, node'.outputs o = []) := by
  intro ports
  induction ports with
  | nil =>
    intro g node hInv hnode
    exact ⟨hInv, node, hnode, rfl, rfl, rfl, fun _ => List.Subset.refl _, by simp⟩
  | cons o rest ih =>
    intro g node hInv hnode
    have hunf : removeOutLoop g N (o :: rest)
        = removeOutLoop ((node.outputs o).foldl
            (fun gg p => (disconnectOutput gg N o p.1 p.2).2) g) N rest := by
      rw [removeOutLoop, hnode]
    rw [hunf]
    obtain ⟨hInv1, node1, hnode1, hempty1, hid1, hic1, hoc1, hsub1⟩ :=
      removeOut_port (node.outputs o) g node hInv hnode rfl
    obtain ⟨hInv', node', hnode', hid', hic', hoc', hsub', hports'⟩ :=
      ih _ node1 hInv1 hnode1
    refine ⟨hInv', node', hnode', hid'.trans hid1, hic'.trans hic1,
      hoc'.trans hoc1, fun o'' => (hsub' o'').trans (hsub1 o''), ?_⟩
    intro o'' ho''
    rcases List.mem_cons.1 ho'' with rfl | ho'''
    · have hsubo := (hsub' o'').trans (by rw [hempty1]; exact List.Subset.refl _)
      exact List.eq_nil_iff_forall_not_mem.2 fun x hx =>
        absurd (hsubo hx) (List.not_mem_nil x)
    · exact hports' o'' ho'''

/-- The input-side loop of `removeNode` clears every listed input port of
the node (whose output side is already empty), preserving the invariant. -/
theorem removeInLoop_spec {N : Int} :
    ∀ (ports : List Int) (g : Graph) (node : Node),
    Inv g → getNode g N = some node → (∀ o, node.outputs o = []) →
    Inv (removeInLoop g N ports) ∧
    ∃ node', getNode (removeInLoop g N ports) N = some node' ∧
      node'.id = node.id ∧ node'.inputCount = node.inputCount ∧
      node'.outputCount = node.outputCount ∧
      (∀ o, node'.outputs o = []) ∧
      (∀ i, node.inputs i = none → node'.inputs i = none) ∧
      (∀ i ∈ ports, node'.inputs i = none) := by
  intro ports
  induction ports with
  | nil =>
    intro g node hInv hnode houts
    exact ⟨hInv, node, hnode, rfl, rfl, rfl, houts, fun _ h => h, by simp⟩
  | cons i rest ih =>
    intro g node hInv hnode houts
    cases hin : node.inputs i with
    | none =>
      have hunf : removeInLoop g N (i :: rest) = removeInLoop g N rest := by
        simp only [removeInLoop, hnode, hin]
      rw [hunf]
      obtain ⟨hInv', node', hnode', hid', hic', hoc', houts', hpres', hports'⟩ :=
        ih g node hInv hnode houts
      refine ⟨hInv', node', hnode', hid', hic', hoc', houts', hpres', ?_⟩
      intro i'' hi''
      rcases List.mem_cons.1 hi'' with rfl | hi'''
      · exact hpres' i'' hin
      · exact hports' i'' hi'''
    | some q =>
      rcases q with ⟨srcId, oIdx⟩
      have hunf : removeInLoop g N (i :: rest)
          = removeInLoop (disconnectOutput g srcId oIdx N i).2 N rest := by
        simp only [removeInLoop, hnode, hin]
      rw [hunf]
      obtain ⟨src, hsrc, hsrcid, hsconn, _, _, _, _⟩ :=
        hInv.inEdge node (getNode_mem hnode) i srcId oIdx hin
      have hgsrc : getNode g srcId = some src :=
        hsrcid ▸ getNode_of_mem hInv.nodup hsrc
      have hsmem : (N, i) ∈ src.outputs oIdx := by
        rw [← getNode_id hnode]
        exact hsconn
      have hsucc := disconnectOutput_success hgsrc hnode hsmem
      have hstep : (disconnectOutput g srcId oIdx N i).2
          = g.map (disconnectUpd srcId oIdx N i) := by rw [hsucc]
      rw [hstep]
      have hInv1 : Inv (g.map (disconnectUpd srcId oIdx N i)) :=
        hInv.disconnect hgsrc hnode hsmem
      have hnode1 : getNode (g.map (disconnectUpd srcId oIdx N i)) N
          = some (disconnectUpd srcId oIdx N i node) := by
        rw [getNode_map_of_id _ (disconnectUpd_id srcId oIdx N i), hnode,
          Option.map_some']
      have houts1 : ∀ o, (disconnectUpd srcId oIdx N i node).outputs o = [] := by
        intro o
        rw [disconnectUpd_outputs]
        by_cases hc : node.id = srcId ∧ o = oIdx
        · rw [if_pos hc, houts o]
          rfl
        · rw [if_neg hc]
          exact houts o
      obtain ⟨hInv', node', hnode', hid', hic', hoc', houts', hpres', hports'⟩ :=
        ih _ (disconnectUpd srcId oIdx N i node) hInv1 hnode1 houts1
      have hcleared : (disconnectUpd srcId oIdx N i node).inputs i = none := by
        rw [disconnectUpd_inputs, if_pos ⟨getNode_id hnode, rfl⟩]
      refine ⟨hInv', node', hnode', by simpa using hid', by simpa using hic',
        by simpa using hoc', houts', ?_, ?_⟩
      · intro i'' hi''
        apply hpres' i''
        rw [disconnectUpd_inputs]
        by_cases hc : node.id = N ∧ i'' = i
        · rw [if_pos hc]
        · rw [if_neg hc]
          exact hi''
      · intro i'' hi''
        rcases List.mem_cons.1 hi'' with rfl | hi'''
        · exact hpres' i'' hcleared
        · exact hports' i'' hi'''

theorem not_mem_eraseP_unique {N : Int} :
    ∀ l : List Node, (idsOf l).Nodup →
      ∀ m ∈ l.eraseP (fun n => n.id == N), m.id ≠ N := by
  intro l
  induction l with
  | nil =>
    intro _ m hm
    simp [List.eraseP] at hm
  | cons x rest ih =>
    intro hnd m hm hid
    simp only [idsOf, List.map_cons, List.nodup_cons] at hnd
    by_cases hx : x.id = N
    · rw [List.eraseP_cons_of_pos (by simpa using hx)] at hm
      apply hnd.1
      rw [hx, ← hid]
      exact List.mem_map_of_mem (fun n => n.id) hm
    · rw [List.eraseP_cons_of_neg (by simpa using hx)] at hm
      rcases List.mem_cons.1 hm with rfl | hm'
      · exact hx hid
      · exact ih hnd.2 m hm' hid

/-- C4 (cascading disconnect on removal).  Removing a present node succeeds,
and afterwards no remaining node carries the removed id, and no remaining
node's inputs or outputs table references the removed node on either
side of any edge. -/
theorem removeNode_clean {g : Graph} (hInv : Inv g) {N : Int} {node : Node}
    (hnode : getNode g N = some node) :
    (removeNode g N).1 = true ∧
    (∀ m ∈ (removeNode g N).2, m.id ≠ N) ∧
    (∀ m ∈ (removeNode g N).2, ∀ i sId o, m.inputs i = some (sId, o) → sId ≠ N) ∧
    (∀ m ∈ (removeNode g N).2, ∀ o p, p ∈ m.outputs o → p.1 ≠ N) := by
  have hunf : removeNode g N =
      (true, (removeInLoop (removeOutLoop g N
          ((List.range node.outputCount.toNat).map fun k : Nat => (k : Int))) N
          ((List.range node.inputCount.toNat).map fun k : Nat => (k : Int))).eraseP
        fun n => n.id == N) := by
    rw [removeNode, hnode]
  obtain ⟨hInv1, node1, hnode1, hid1, hic1, hoc1, hsub1, hports1⟩ :=
    removeOutLoop_spec ((List.range node.outputCount.toNat).map
      fun k : Nat => (k : Int)) g node hInv hnode
  have houts1 : ∀ o, node1.outputs o = [] := by
    intro o
    by_cases hr : 0 ≤ o ∧ o < node.outputCount
    · exact hports1 o (mem_ports.2 hr)
    · have h0 := hInv.outRange node (getNode_mem hnode) o hr
      exact List.eq_nil_iff_forall_not_mem.2 fun x hx =>
        absurd (h0 ▸ hsub1 o hx) (List.not_mem_nil x)
  obtain ⟨hInv2, node2, hnode2, hid2, hic2, hoc2, houts2, hpres2, hports2⟩ :=
    removeInLoop_spec ((List.range node.inputCount.toNat).map
      fun k : Nat => (k : Int)) _ node1 hInv1 hnode1 houts1
  have hins2 : ∀ i, node2.inputs i = none := by
    intro i
    by_cases hr : 0 ≤ i ∧ i < node.inputCount
    · exact hports2 i (mem_ports.2 hr)
    · cases hin : node2.inputs i with
      | none => rfl
      | some q =>
        exfalso
        rcases q with ⟨sId, o⟩
        obtain ⟨_, _, _, _, _, _, hi0, hilt⟩ :=
          hInv2.inEdge node2 (getNode_mem hnode2) i sId o hin
        rw [hic2, hic1] at hilt
        exact hr ⟨hi0, hilt⟩
  rw [hunf]
  refine ⟨rfl, ?_, ?_, ?_⟩
  · intro m hm
    exact not_mem_eraseP_unique _ hInv2.nodup m hm
  · intro m hm i sId o hin hsid
    have hm2 := List.mem_of_mem_eraseP hm
    obtain ⟨s, hs, hsid', hconn, _, _, _, _⟩ :=
      hInv2.inEdge m hm2 i sId o hin
    have hsnode2 : s = node2 := by
      apply mem_id_unique hInv2.nodup hs (getNode_mem hnode2)
      rw [hsid', hsid, hid2, hid1, getNode_id hnode]
    rw [hsnode2, houts2 o] at hconn
    exact absurd hconn (List.not_mem_nil _)
  · intro m hm o p hp hpid
    have hm2 := List.mem_of_mem_eraseP hm
    obtain ⟨t, ht, htid, hconn⟩ := hInv2.outEdge m hm2 o p.1 p.2 (by
      rwa [show (p.1, p.2) = p from rfl])
    have htnode2 : t = node2 := by
      apply mem_id_unique hInv2.nodup ht (getNode_mem hnode2)
      rw [htid, hpid, hid2, hid1, getNode_id hnode]
    rw [htnode2, hins2 p.2] at hconn
    cases hconn

/-- C6 (disconnect/reconnect round trip).  On an acyclic well-formed graph
holding the edge `(a, o) → (b, i)`, disconnecting it and immediately
reconnecting with the same arguments both succeed, and the final graph has
the same node ids in order, every node's inputs table unchanged, and every
node's output lists holding exactly the same edges. -/
theorem disconnect_reconnect_roundtrip {g : Graph} (hInv : Inv g)
    (hacyc : Acyclic g) {a o b i : Int} {s : Node}
    (hgs : getNode g a = some s) (hmem : (b, i) ∈ s.outputs o) :
    (disconnectNodes g a o b i).1 = true ∧
    (connectNodes (disconnectNodes g a o b i).2 a o b i).1 = true ∧
    idsOf (connectNodes (disconnectNodes g a o b i).2 a o b i).2 = idsOf g ∧
    ∀ m' ∈ (connectNodes (disconnectNodes g a o b i).2 a o b i).2, ∀ m ∈ g,
      m'.id = m.id →
      m'.inputs = m.inputs ∧ ∀ o' p, (p ∈ m'.outputs o' ↔ p ∈ m.outputs o') := by
  obtain ⟨t, ht, htid, hconn⟩ := hInv.outEdge s (getNode_mem hgs) o b i hmem
  have hgt : getNode g b = some t := htid ▸ getNode_of_mem hInv.nodup ht
  obtain ⟨s', hs', hsid', _, ho0, holt, hi0, hilt⟩ :=
    hInv.inEdge t ht i s.id o hconn
  have hss' : s' = s :=
    mem_id_unique hInv.nodup hs' (getNode_mem hgs) hsid'
  rw [hss'] at holt
  have hdisc : disconnectNodes g a o b i
      = (true, g.map (disconnectUpd a o b i)) := by
    rw [disconnectNodes_eq hgs hgt, disconnectOutput_success hgs hgt hmem]
  rw [hdisc]
  have hψ : ∀ n, (disconnectUpd a o b i n).id = n.id := disconnectUpd_id a o b i
  have hgs' : getNode (g.map (disconnectUpd a o b i)) a
      = some (disconnectUpd a o b i s) := by
    rw [getNode_map_of_id _ hψ, hgs, Option.map_some']
  have hgt' : getNode (g.map (disconnectUpd a o b i)) b
      = some (disconnectUpd a o b i t) := by
    rw [getNode_map_of_id _ hψ, hgt, Option.map_some']
  have hInvd : Inv (g.map (disconnectUpd a o b i)) :=
    hInv.disconnect hgs hgt hmem
  have hocc' : (disconnectUpd a o b i t).inputs i = none := by
    rw [disconnectUpd_inputs, if_pos ⟨htid, rfl⟩]
  have hro' : 0 ≤ o ∧ o < (disconnectUpd a o b i s).outputCount := by
    rw [disconnectUpd_outputCount]
    exact ⟨ho0, holt⟩
  have hri' : 0 ≤ i ∧ i < (disconnectUpd a o b i t).inputCount := by
    rw [disconnectUpd_inputCount]
    exact ⟨hi0, hilt⟩
  rw [connectNodes_checks_pass hInvd hgs' hgt' hro' hri' hocc']
  rw [List.map_map]
  set ρ := connectUpd a o b i ∘ disconnectUpd a o b i with hρ
  have hρid : ∀ n, (ρ n).id = n.id := by
    intro n
    rw [hρ]
    simp
  have hρic : ∀ n, (ρ n).inputCount = n.inputCount := by
    intro n
    rw [hρ]
    simp
  have hρoc : ∀ n, (ρ n).outputCount = n.outputCount := by
    intro n
    rw [hρ]
    simp
  have hout : ∀ n ∈ g, ∀ o' p, p ∈ (ρ n).outputs o' ↔ p ∈ n.outputs o' := by
    intro n hn o' p
    rw [hρ]
    simp only [Function.comp_apply]
    rw [connectUpd_outputs, disconnectUpd_id, disconnectUpd_outputs]
    by_cases hc : n.id = a ∧ o' = o
    · rw [if_pos hc, if_pos hc]
      have hns : n = s :=
        mem_id_unique hInv.nodup hn (getNode_mem hgs)
          (hc.1.trans (getNode_id hgs).symm)
      subst hns
      constructor
      · intro hp
        rcases List.mem_append.1 hp with h1 | h1
        · exact List.mem_of_mem_erase h1
        · rw [List.mem_singleton.1 h1, hc.2]
          exact hmem
      · intro hp
        by_cases hpe : p = (b, i)
        · subst hpe
          exact List.mem_append_right _ (List.mem_singleton.2 rfl)
        · exact List.mem_append_left _ ((List.mem_erase_of_ne hpe).2 hp)
    · rw [if_neg hc, if_neg hc]
  have hin : ∀ n ∈ g, (ρ n).inputs = n.inputs := by
    intro n hn
    funext i'
    rw [hρ]
    simp only [Function.comp_apply]
    rw [connectUpd_inputs, disconnectUpd_id, disconnectUpd_inputs]
    by_cases hc : n.id = b ∧ i' = i
    · rw [if_pos hc]
      have hnt : n = t :=
        mem_id_unique hInv.nodup hn (getNode_mem hgt)
          (hc.1.trans (getNode_id hgt).symm)
      rw [hnt, hc.2, hconn, getNode_id hgs]
    · rw [if_neg hc, if_neg hc]
  have hsucc : ∀ n ∈ g, ∀ y, y ∈ succIds (ρ n) ↔ y ∈ succIds n := by
    intro n hn y
    rw [mem_succIds, mem_succIds]
    constructor
    · rintro ⟨o', i', h0, hlt, hp⟩
      rw [hρoc] at hlt
      exact ⟨o', i', h0, hlt, (hout n hn o' (y, i')).1 hp⟩
    · rintro ⟨o', i', h0, hlt, hp⟩
      refine ⟨o', i', h0, ?_, (hout n hn o' (y, i')).2 hp⟩
      rw [hρoc]
      exact hlt
  have hedge : ∀ x y, Edge (g.map ρ) x y ↔ Edge g x y := by
    intro x y
    constructor
    · rintro ⟨m, hm, hid, hy⟩
      obtain ⟨n, hn, rfl⟩ := List.mem_map.1 hm
      exact ⟨n, hn, (hρid n) ▸ hid, (hsucc n hn y).1 hy⟩
    · rintro ⟨n, hn, hid, hy⟩
      exact ⟨ρ n, List.mem_map_of_mem _ hn, (hρid n).trans hid,
        (hsucc n hn y).2 hy⟩
  have hacycc : Acyclic (g.map ρ) := by
    intro x hp
    exact hacyc x (rpath_mono (fun u v h => (hedge u v).1 h) hp)
  have hInvc : Inv (g.map ρ) := by
    have := hInvd.connect hgs' hgt' hro' hri' hocc'
    rwa [List.map_map] at this
  have hcc : containsCycles (g.map ρ) = false := by
    cases hcase : containsCycles (g.map ρ) with
    | false => rfl
    | true =>
      obtain ⟨x, hp⟩ := (containsCycles_iff hInvc).1 hcase
      exact absurd hp (hacycc x)
  rw [if_neg (by rw [hcc]; simp)]
  refine ⟨rfl, rfl, ?_, ?_⟩
  · exact idsOf_map_of_id ρ hρid
  · intro m' hm' m hm hid
    obtain ⟨n, hn, rfl⟩ := List.mem_map.1 hm'
    have hnm : n = m := by
      apply mem_id_unique hInv.nodup hn hm
      rw [← hρid n]
      exact hid
    subst hnm
    exact ⟨hin n hn, hout n hn⟩

theorem fresh_gFresh : Fresh gFresh := by
  refine ⟨by decide, ?_⟩
  intro n hn
  have hm : n = freshA ∨ n = freshB := by simpa [gFresh] using hn
  rcases hm with rfl | rfl <;> exact ⟨fun _ => rfl, fun _ => rfl⟩

theorem inv_gAB : Inv gAB := by
  refine ⟨by decide, ?_, ?_, ?_, ?_⟩
  · intro t ht i sId o hin
    have hm : t = nodeA ∨ t = nodeB := by simpa [gAB] using ht
    rcases hm with rfl | rfl
    · exact absurd hin (by simp [nodeA])
    · by_cases hi : i = 0
      · subst hi
        have h1 : sId = 0 ∧ o = 0 := by
          have h0 : (some ((0 : Int), (0 : Int)) : Option (Int × Int))
              = some (sId, o) := hin
          injection h0 with h3
          injection h3 with ha hb
          exact ⟨ha.symm, hb.symm⟩
        obtain ⟨rfl, rfl⟩ := h1
        exact ⟨nodeA, by simp [gAB], by decide, by decide, by decide, by decide,
          by decide, by decide⟩
      · exact absurd hin (by simp [nodeB, hi])
  · intro s hs o tId i hmm
    have hm : s = nodeA ∨ s = nodeB := by simpa [gAB] using hs
    rcases hm with rfl | rfl
    · by_cases ho : o = 0
      · subst ho
        have h1 : tId = 1 ∧ i = 0 := by
          have h0 : (tId, i) ∈ [((1 : Int), (0 : Int))] := hmm
          have h3 := List.mem_singleton.1 h0
          injection h3 with ha hb
          exact ⟨ha, hb⟩
        obtain ⟨rfl, rfl⟩ := h1
        exact ⟨nodeB, by simp [gAB], by decide, by decide⟩
      · exact absurd hmm (by simp [nodeA, ho])
    · exact absurd hmm (by simp [nodeB])
  · intro s hs o hno
    have hm : s = nodeA ∨ s = nodeB := by simpa [gAB] using hs
    rcases hm with rfl | rfl
    · have ho : ¬ o = 0 := by
        intro h
        subst h
        exact hno (by decide)
      simp [nodeA, ho]
    · simp [nodeB]
  · intro s hs o
    have hm : s = nodeA ∨ s = nodeB := by simpa [gAB] using hs
    rcases hm with rfl | rfl
    · by_cases ho : o = 0 <;> simp [nodeA, ho]
    · simp [nodeB]

theorem acyclic_gAB : Acyclic gAB :=
  containsCycles_complete inv_gAB (by decide)

theorem inv_gCyc : Inv gCyc := by
  refine ⟨by decide, ?_, ?_, ?_, ?_⟩
  · intro t ht i sId o hin
    have hm : t = cycA ∨ t = cycB := by simpa [gCyc] using ht
    rcases hm with rfl | rfl
    · by_cases hi : i = 0
      · subst hi
        have h1 : sId = 1 ∧ o = 0 := by
          have h0 : (some ((1 : Int), (0 : Int)) : Option (Int × Int))
              = some (sId, o) := hin
          injection h0 with h3
          injection h3 with ha hb
          exact ⟨ha.symm, hb.symm⟩
        obtain ⟨rfl, rfl⟩ := h1
        exact ⟨cycB, by simp [gCyc], by decide, by decide, by decide, by decide,
          by decide, by decide⟩
      · exact absurd hin (by simp [cycA, hi])
    · by_cases hi : i = 0
      · subst hi
        have h1 : sId = 0 ∧ o = 0 := by
          have h0 : (some ((0 : Int), (0 : Int)) : Option (Int × Int))
              = some (sId, o) := hin
          injection h0 with h3
          injection h3 with ha hb
          exact ⟨ha.symm, hb.symm⟩
        obtain ⟨rfl, rfl⟩ := h1
        exact ⟨cycA, by simp [gCyc], by decide, by decide, by decide, by decide,
          by decide, by decide⟩
      · exact absurd hin (by simp [cycB, hi])
  · intro s hs o tId i hmm
    have hm : s = cycA ∨ s = cycB := by simpa [gCyc] using hs
    rcases hm with rfl | rfl
    · by_cases ho : o = 0
      · subst ho
        have h1 : tId = 1 ∧ i = 0 := by
          have h0 : (tId, i) ∈ [((1 : Int), (0 : Int))] := hmm
          have h3 := List.mem_singleton.1 h0
          injection h3 with ha hb
          exact ⟨ha, hb⟩
        obtain ⟨rfl, rfl⟩ := h1
        exact ⟨cycB, by simp [gCyc], by decide, by decide⟩
      · exact absurd hmm (by simp [cycA, ho])
    · by_cases ho : o = 0
      · subst ho
        have h1 : tId = 0 ∧ i = 0 := by
          have h0 : (tId, i) ∈ [((0 : Int), (0 : Int))] := hmm
          have h3 := List.mem_singleton.1 h0
          injection h3 with ha hb
          exact ⟨ha, hb⟩
        obtain ⟨rfl, rfl⟩ := h1
        exact ⟨cycA, by simp [gCyc], by decide, by decide⟩
      · exact absurd hmm (by simp [cycB, ho])
  · intro s hs o hno
    have hm : s = cycA ∨ s = cycB := by simpa [gCyc] using hs
    rcases hm with rfl | rfl <;>
    · have ho : ¬ o = 0 := by
        intro h
        subst h
        exact hno (by decide)
      simp [cycA, cycB, ho]
  · intro s hs o
    have hm : s = cycA ∨ s = cycB := by simpa [gCyc] using hs
    rcases hm with rfl | rfl <;> by_cases ho : o = 0 <;>
      simp [cycA, cycB, ho]

/-- The state `gAB` plus the reverse edge `(1, 0) → (0, 0)` is cyclic. -/
theorem cyclic_gAB_rev : Cyclic (gAB.map (connectUpd 1 0 0 0)) := by
  refine ⟨0, @RPath.cons _ 0 1 0 ?_ (@RPath.single _ 1 0 ?_)⟩
  · exact ⟨connectUpd 1 0 0 0 nodeA, List.mem_map_of_mem _ (by simp [gAB]),
      by decide, by decide⟩
  · exact ⟨connectUpd 1 0 0 0 nodeB, List.mem_map_of_mem _ (by simp [gAB]),
      by decide, by decide⟩

/-- C10 (implicit: node-level connect bypasses the cycle check).
`BaseNode::connectOutput` succeeds iff both port indices are in range and
the target input is unoccupied — with no acyclicity check: connecting
`(1, 0) → (0, 0)` directly on `gAB` succeeds and leaves the edge relation
cyclic, so the acyclicity invariant is guaranteed only for `connectNodes`. -/
theorem connectOutput_characterization :
    (∀ (g : Graph) (a o b i : Int) (s t : Node),
      getNode g a = some s → getNode g b = some t →
      ((connectOutput g a o b i).1 = true ↔
        (0 ≤ o ∧ o < s.outputCount ∧ 0 ≤ i ∧ i < t.inputCount ∧
          t.inputs i = none))) ∧
    ((connectOutput gAB 1 0 0 0).1 = true ∧
      Cyclic (connectOutput gAB 1 0 0 0).2) := by
  constructor
  · intro g a o b i s t hgs hgt
    constructor
    · intro h1
      by_cases hr : o < 0 ∨ o ≥ s.outputCount ∨ i < 0 ∨ i ≥ t.inputCount
      · rw [show connectOutput g a o b i = (false, g) by
          simp only [connectOutput, hgs, hgt, if_pos hr]] at h1
        cases h1
      · by_cases hso : (t.inputs i).isSome
        · rw [show connectOutput g a o b i = (false, g) by
            simp only [connectOutput, hgs, hgt, if_neg hr, hso, if_true]] at h1
          cases h1
        · push_neg at hr
          obtain ⟨h2, h3, h4, h5⟩ := hr
          exact ⟨by omega, by omega, by omega, by omega,
            Option.not_isSome_iff_eq_none.1 hso⟩
    · rintro ⟨h1, h2, h3, h4, h5⟩
      rw [connectOutput_success hgs hgt ⟨h1, h2⟩ ⟨h3, h4⟩ h5]
  · have hsucc := @connectOutput_success gAB 1 0 0 0 nodeB nodeA rfl rfl
      (by decide) (by decide) (by decide)
    constructor
    · rw [hsucc]
    · rw [show (connectOutput gAB 1 0 0 0).2 = gAB.map (connectUpd 1 0 0 0) by
        rw [hsucc]]
      exact cyclic_gAB_rev

/-- Witness for C1 at the fresh two-node graph. -/
theorem referential_integrity_witness :
    ((freshB.id, (0 : Int)) ∈ freshA.outputs 0 ↔
      freshB.inputs 0 = some (freshA.id, 0)) :=
  reachable_referential_integrity fresh_gFresh Reachable.base freshA
    (by simp [gFresh]) freshB (by simp [gFresh]) 0 0

/-- Witness for C2: closing the 2-cycle on `gAB` is refused and rolled back. -/
theorem connectNodes_cycle_rollback_witness :
    connectNodes gAB 1 0 0 0 = (false, gAB) :=
  (connectNodes_cycle_rollback inv_gAB acyclic_gAB).1 1 0 0 0 nodeB nodeA
    rfl rfl (by decide) (by decide) (by decide) (by decide) (by decide)
    cyclic_gAB_rev

/-- Witness for C3: on `gAB`, id 0 is scheduled before id 1. -/
theorem getProcessingOrder_topological_witness :
    ∃ p1 p2 p3,
      idsOf (getProcessingOrder gAB) = p1 ++ (0 : Int) :: (p2 ++ 1 :: p3) :=
  getProcessingOrder_topological inv_gAB acyclic_gAB
    ⟨nodeA, by simp [gAB], rfl, by decide⟩

/-- Witness for C4: removing node 0 from `gAB` succeeds. -/
theorem removeNode_clean_witness : (removeNode gAB 0).1 = true :=
  (removeNode_clean inv_gAB (rfl : getNode gAB 0 = some nodeA)).1

/-- Witness for C5: an out-of-range output port is rejected without any
state change. -/
theorem connectNodes_fail_unchanged_witness :
    connectNodes gAB 0 5 1 0 = (false, gAB) :=
  (connectNodes_fail_unchanged (rfl : getNode gAB 0 = some nodeA)
    (rfl : getNode gAB 1 = some nodeB)).1 (by decide)

/-- Witness for C6: the edge of `gAB` can be disconnected and immediately
reconnected, both calls succeeding. -/
theorem disconnect_reconnect_roundtrip_witness :
    (disconnectNodes gAB 0 0 1 0).1 = true ∧
    (connectNodes (disconnectNodes gAB 0 0 1 0).2 0 0 1 0).1 = true :=
  ⟨(disconnect_reconnect_roundtrip inv_gAB acyclic_gAB
      (rfl : getNode gAB 0 = some nodeA) (by decide)).1,
   (disconnect_reconnect_roundtrip inv_gAB acyclic_gAB
      (rfl : getNode gAB 0 = some nodeA) (by decide)).2.1⟩

/-- Witness for C7: on the 2-cycle graph the stalled scheduler returns the
empty partial order. -/
theorem getProcessingOrder_stall_witness : orderLoop gCyc [] [] = [] :=
  (getProcessingOrder_stall inv_gCyc rfl ⟨cycA, by simp [gCyc], by simp⟩).2.1

/-- Witness for C8 at `gAB`. -/
theorem validateGraph_iff_witness :
    validateGraph gAB = true ↔
      (Acyclic gAB ∧ ∀ n ∈ gAB, ∀ i : Int, 0 ≤ i → i < n.inputCount →
        (n.inputs i).isSome = true) :=
  validateGraph_iff inv_gAB

/-- Witness for C9 at `gAB`. -/
theorem getProcessingOrder_every_node_once_witness :
    (getProcessingOrder gAB).Perm gAB :=
  (getProcessingOrder_every_node_once inv_gAB acyclic_gAB).1

/-- Witness for C10: a valid node-level connect on the fresh graph
succeeds. -/
theorem connectOutput_characterization_witness :
    (connectOutput gFresh 0 0 1 0).1 = true :=
  (connectOutput_characterization.1 gFresh 0 0 1 0 freshA freshB rfl rfl).mpr
    (by decide)

end NodeEngine

